import Mathlib

/-!
Verification development for the route-matching core of the repository
(`src/unnamed/part_000`, a vendored react-router v6 matching engine).

Strings are embedded as `List Char` (`Str`).  JavaScript regular expressions
appear in the source only in a handful of fixed shapes, so the compiled
matcher is embedded as a small token automaton (`PTok` / `RTail`) together
with a backtracking interpreter (`matchToks` / `tryParam`) that mirrors the
greedy, leftmost semantics of the JS regex engine on exactly those shapes.
Functions that can throw (`invariant`) return `Except`.  `Array.prototype.sort`
is modelled as a stable insertion sort (ECMAScript requires a stable sort;
for inconsistent comparators the result is implementation-defined, and the
model agrees with the major engines on the concrete inputs used below).
-/

abbrev Str := List Char

/-! ### Character helpers (JS semantics) -/

/-- JS word character class `\w` = `[A-Za-z0-9_]`. -/
def isWordChar (c : Char) : Bool :=
  ('a' ≤ c && c ≤ 'z') || ('A' ≤ c && c ≤ 'Z') || ('0' ≤ c && c ≤ '9') || c = '_'

/-- JS line terminators, which `.` in a regex does not match. -/
def lineTerm (c : Char) : Bool :=
  c = '\n' || c = '\r' || c = Char.ofNat 0x2028 || c = Char.ofNat 0x2029

/-- ASCII lower-casing, modelling `String.prototype.toLowerCase` and the
case-insensitive `i` regex flag on the ASCII range. -/
def lowerAscii (c : Char) : Char :=
  if 'A' ≤ c && c ≤ 'Z' then Char.ofNat (c.toNat + 32) else c

def lowerStr (s : Str) : Str := s.map lowerAscii

/-- One literal pattern character against one input character, honouring the
`i` flag (`ci = true` means case-insensitive). -/
def charMatches (ci : Bool) (p c : Char) : Bool :=
  if ci then lowerAscii p = lowerAscii c else p = c

/-! ### Basic string operations used by the source -/

/-- `String.prototype.split` with a single-character separator. -/
def splitOnChar (c : Char) : Str → List Str
  | [] => [[]]
  | x :: xs =>
    if x = c then [] :: splitOnChar c xs
    else (x :: (splitOnChar c xs).headD []) :: (splitOnChar c xs).tail

/-- `Array.prototype.join` with a single-character separator. -/
def joinWithChar (c : Char) : List Str → Str
  | [] => []
  | [s] => s
  | s :: ss => s ++ c :: joinWithChar c ss

/-- `s.replace(/\/+$/, '')`: drop all trailing slashes. -/
def dropTrailingSlashes (s : Str) : Str :=
  (s.reverse.dropWhile (· = '/')).reverse

/-- Helper for `collapseSlashes`: the boolean records whether the previous
kept character was a slash. -/
def collapseGo : Bool → Str → Str
  | _, [] => []
  | prevSlash, c :: rest =>
    if c = '/' then
      if prevSlash then collapseGo true rest else '/' :: collapseGo true rest
    else c :: collapseGo false rest

/-- `s.replace(/\/\/+/g, '/')`: collapse every run of slashes to one slash. -/
def collapseSlashes (s : Str) : Str := collapseGo false s

/-- `joinPaths` from the source: `paths.join('/').replace(/\/\/+/g, '/')`. -/
def joinPaths (paths : List Str) : Str := collapseSlashes (joinWithChar '/' paths)

/-- `s.replace(/(.)\/+$/, '$1')` as used for `pathnameBase`: the earliest
regex match strips the maximal trailing slash run after a non-line-terminator
character, keeping one slash when the run is only preceded by a line
terminator or starts the string. -/
def stripSlashSuffix (s : Str) : Str :=
  let rev := s.reverse
  let slashes := rev.takeWhile (· = '/')
  let stem := rev.dropWhile (· = '/')
  match stem.head? with
  | some c =>
    if 1 ≤ slashes.length && !lineTerm c then stem.reverse
    else if 2 ≤ slashes.length then stem.reverse ++ ['/'] else s
  | none => if 2 ≤ slashes.length then ['/'] else s

/-! ### Percent decoding (model of the `decodeURIComponent` builtin)

The builtin is modelled on the ASCII range: `%HH` with `HH < 0x80` decodes to
the corresponding character, a malformed escape or a non-ASCII byte is a
decode failure (the source catches any failure and keeps the raw text, so
only the success/failure split and the identity on percent-free input
matter to the claims below). -/

def hexVal (c : Char) : Option Nat :=
  if '0' ≤ c && c ≤ '9' then some (c.toNat - 48)
  else if 'a' ≤ c && c ≤ 'f' then some (c.toNat - 87)
  else if 'A' ≤ c && c ≤ 'F' then some (c.toNat - 55)
  else none

def decodeURIComponentM : Str → Option Str
  | [] => some []
  | '%' :: a :: b :: rest =>
    match hexVal a, hexVal b with
    | some ha, some hb =>
      if 16 * ha + hb < 128 then
        (decodeURIComponentM rest).map (Char.ofNat (16 * ha + hb) :: ·)
      else none
    | _, _ => none
  | '%' :: _ => none
  | c :: rest => (decodeURIComponentM rest).map (c :: ·)

/-- `safelyDecodeURIComponent` from the source: decode, falling back to the
raw value on failure (the warning is not modelled). -/
def safelyDecodeURIComponent (value : Str) : Str :=
  (decodeURIComponentM value).getD value

/-! ### `generatePath` -/

/-- The `path.replace(/:(\w+)/g, ...)` pass of `generatePath`: substitute each
`:name` occurrence by `params[name]`, failing like `invariant` when the
parameter is missing.  The `Nat` argument is fuel; `generatePath` supplies
`path.length + 1`, which is always sufficient. -/
def genReplaceParamsF (params : Str → Option Str) : Nat → Str → Except String Str
  | 0, _ => .ok []
  | _ + 1, [] => .ok []
  | f + 1, ':' :: rest =>
    let w := rest.takeWhile isWordChar
    if w.isEmpty then (genReplaceParamsF params f rest).map (':' :: ·)
    else
      match params w with
      | none => .error "Missing param"
      | some v => (genReplaceParamsF params f (rest.drop w.length)).map (v ++ ·)
  | f + 1, c :: rest => (genReplaceParamsF params f rest).map (c :: ·)

/-- The `.replace(/\/*\*$/, ...)` pass of `generatePath`: when the string ends
in `*`, the star together with the slash run before it is replaced by the
(slash-normalised) splat parameter, or by nothing when absent. -/
def splatReplace (params : Str → Option Str) (s : Str) : Str :=
  if s.getLast? = some '*' then
    dropTrailingSlashes s.dropLast ++
      (match params ['*'] with
       | none => []
       | some v => '/' :: v.dropWhile (· = '/'))
  else s

/-- `generatePath` from the source. -/
def generatePath (path : Str) (params : Str → Option Str) : Except String Str :=
  (genReplaceParamsF params (path.length + 1) path).map (splatReplace params)

/-! ### `parsePath` (model of the `history` package dependency) -/

structure ParsedPath where
  pathname : Option Str
  search : Option Str
  hash : Option Str
deriving DecidableEq

/-- `parsePath` from the `history` package: split off `#hash` then `?search`,
leaving fields absent when their separator is absent (and `pathname` absent
when the remainder is empty). -/
def parsePath (path : Str) : ParsedPath :=
  if path.isEmpty then ⟨none, none, none⟩
  else
    let hash := if path.contains '#' then some (path.dropWhile (· ≠ '#')) else none
    let p1 := path.takeWhile (· ≠ '#')
    let search := if p1.contains '?' then some (p1.dropWhile (· ≠ '?')) else none
    let p2 := p1.takeWhile (· ≠ '?')
    ⟨if p2.isEmpty then none else some p2, search, hash⟩

/-! ### The compiled pattern automaton (`compilePath`) -/

/-- One token of the compiled matcher body: a literal character, or the
capturing group `([^\/]+)` produced from a `:name` segment. -/
inductive PTok where
  | lit (c : Char)
  | prm
deriving DecidableEq

/-- The tail of the compiled regex after the body:
`(.*)$` (splat of a bare `*`/`/*` pattern), `(?:\/(.+)|\/*)$` (other splats),
`\/*$` (`end` true), or `(?:\b|$)` (`end` false). -/
inductive RTail where
  | splatFull
  | splatSeg
  | endSlashes
  | wordBound
deriving DecidableEq

structure CompiledMatcher where
  toks : List PTok
  tail : RTail
  ignoreCase : Bool
deriving DecidableEq

/-- The `path.replace(/\/*\*?$/, '')` pass of `compilePath`: strip a trailing
`*` (if any) and the slash run before it. -/
def stripTrailingForBody (path : Str) : Str :=
  if path.getLast? = some '*' then dropTrailingSlashes path.dropLast
  else dropTrailingSlashes path

/-- Scan the normalised body for `:name` occurrences (the
`.replace(/:(\w+)/g, ...)` pass), producing matcher tokens and the list of
parameter names in order.  The `Nat` argument is fuel; `scanTokens` supplies
`length + 1`, which is always sufficient. -/
def scanTokensF : Nat → Str → List PTok × List Str
  | 0, _ => ([], [])
  | _ + 1, [] => ([], [])
  | f + 1, ':' :: rest =>
    let w := rest.takeWhile isWordChar
    if w.isEmpty then
      let r := scanTokensF f rest
      (.lit ':' :: r.1, r.2)
    else
      let r := scanTokensF f (rest.drop w.length)
      (.prm :: r.1, w :: r.2)
  | f + 1, c :: rest =>
    let r := scanTokensF f rest
    (.lit c :: r.1, r.2)

def scanTokens (s : Str) : List PTok × List Str := scanTokensF (s.length + 1) s

/-- `compilePath` from the source, producing the compiled matcher and the
ordered parameter names (with `*` appended for splat patterns). -/
def compilePath (path : Str) (caseSensitive : Bool) (matchEnd : Bool) :
    CompiledMatcher × List Str :=
  let body := '/' :: (stripTrailingForBody path).dropWhile (· = '/')
  let scanned := scanTokens body
  if path.getLast? = some '*' then
    (⟨scanned.1,
      if path = ['*'] || path = ['/', '*'] then .splatFull else .splatSeg,
      !caseSensitive⟩,
     scanned.2 ++ [['*']])
  else
    (⟨scanned.1, if matchEnd then .endSlashes else .wordBound, !caseSensitive⟩,
     scanned.2)

/-! ### The matcher interpreter

`matchToks` runs the compiled body tokens against the input from position 0
(the regex is anchored by `^`), returning the number of consumed characters
and the capture list on success.  `tryParam` implements the greedy
backtracking of the `([^\/]+)` group: extend the capture as far as possible
first, then retry shorter captures.  `prev` carries the previously consumed
character, needed only by the `\b` word-boundary tail. -/

def tailMatch (tail : RTail) (prev : Option Char) (rest : Str) :
    Option (Nat × List (Option Str)) :=
  match tail with
  | .splatFull =>
    if rest.all (fun c => !lineTerm c) then some (rest.length, [some rest]) else none
  | .splatSeg =>
    match rest with
    | '/' :: r =>
      if !r.isEmpty && r.all (fun c => !lineTerm c) then some (rest.length, [some r])
      else if rest.all (· = '/') then some (rest.length, [none]) else none
    | _ => if rest.all (· = '/') then some (rest.length, [none]) else none
  | .endSlashes => if rest.all (· = '/') then some (rest.length, []) else none
  | .wordBound =>
    let prevW := match prev with | some c => isWordChar c | none => false
    let nextW := match rest with | c :: _ => isWordChar c | [] => false
    if rest.isEmpty || prevW ≠ nextW then some (0, []) else none

def tryParam (cont : Char → Str → Option (Nat × List (Option Str)))
    (takenRev : Str) : Str → Option (Nat × List (Option Str))
  | y :: rest' =>
    (if y ≠ '/' then tryParam cont (y :: takenRev) rest' else none)
    <|> (cont (takenRev.headD ' ') (y :: rest')).map
          (fun p => (p.1 + takenRev.length, some takenRev.reverse :: p.2))
  | [] =>
    (cont (takenRev.headD ' ') []).map
      (fun p => (p.1 + takenRev.length, some takenRev.reverse :: p.2))

def matchToks (ci : Bool) (tail : RTail) :
    List PTok → Option Char → Str → Option (Nat × List (Option Str))
  | [], prev, rest => tailMatch tail prev rest
  | .lit _ :: _, _, [] => none
  | .lit c :: ts, _, x :: rest =>
    if charMatches ci c x then
      (matchToks ci tail ts (some x) rest).map (fun p => (p.1 + 1, p.2))
    else none
  | .prm :: _, _, [] => none
  | .prm :: ts, _, x :: rest =>
    if x = '/' then none
    else tryParam (fun lastC r => matchToks ci tail ts (some lastC) r) [x] rest

/-! ### `matchPath` -/

structure PathPattern where
  path : Str
  caseSensitive : Bool
  /-- The source field `end`; renamed because `end` is a Lean keyword. -/
  matchEnd : Bool
deriving DecidableEq

structure PathMatch where
  params : List (Str × Str)
  pathname : Str
  pathnameBase : Str
  pattern : PathPattern
deriving DecidableEq

/-- Insert-or-overwrite on an association list, modelling assignment to a JS
object key (insertion order kept, overwrite in place). -/
def setParam : List (Str × Str) → Str → Str → List (Str × Str)
  | [], k, v => [(k, v)]
  | (k', v') :: rest, k, v =>
    if k' = k then (k', v) :: rest else (k', v') :: setParam rest k v

def lookupParam (ps : List (Str × Str)) (k : Str) : Option Str :=
  (ps.find? (fun p => p.1 = k)).map (·.2)

/-- Pair parameter names with capture groups positionally; a missing group is
`undefined` (`none`), as with a JS capture array. -/
def zipCaps : List Str → List (Option Str) → List (Str × Option Str)
  | [], _ => []
  | n :: ns, [] => (n, none) :: zipCaps ns []
  | n :: ns, c :: cs => (n, c) :: zipCaps ns cs

/-- The `paramNames.reduce` of `matchPath`: build the params object and
recompute `pathnameBase` from the raw splat value when the `*` name is hit. -/
def paramsFold (matched : Str) :
    List (Str × Option Str) → List (Str × Str) × Str → List (Str × Str) × Str
  | [], st => st
  | (name, cap) :: rest, (ps, base) =>
    let raw := cap.getD []
    let base' :=
      if name = ['*'] then stripSlashSuffix (matched.take (matched.length - raw.length))
      else base
    paramsFold matched rest (setParam ps name (safelyDecodeURIComponent raw), base')

/-- `matchPath` from the source (for a `PathPattern` argument; the string
overload of the source is `⟨path, false, true⟩`). -/
def matchPath (pattern : PathPattern) (pathname : Str) : Option PathMatch :=
  let compiled := compilePath pattern.path pattern.caseSensitive pattern.matchEnd
  match matchToks compiled.1.ignoreCase compiled.1.tail compiled.1.toks none pathname with
  | none => none
  | some nc =>
    let matchedPathname := pathname.take nc.1
    let folded :=
      paramsFold matchedPathname (zipCaps compiled.2 nc.2)
        ([], stripSlashSuffix matchedPathname)
    some ⟨folded.1, matchedPathname, folded.2, pattern⟩

/-! ### Routes, branches and scoring -/

/-- The route node.  Modelled from the spec: the repository's `typings` file
is not among the sources; §3 of the spec describes a Route as an optional
`path`, optional `index` flag, optional `caseSensitive` flag and an ordered
sequence of child Routes. -/
inductive RouteObject where
  | mk (path : Option Str) (index : Bool) (caseSensitive : Bool)
      (children : List RouteObject)

def RouteObject.path : RouteObject → Option Str
  | .mk p _ _ _ => p

def RouteObject.index : RouteObject → Bool
  | .mk _ i _ _ => i

def RouteObject.caseSensitive : RouteObject → Bool
  | .mk _ _ cs _ => cs

def RouteObject.children : RouteObject → List RouteObject
  | .mk _ _ _ cs => cs

structure RouteMeta where
  relativePath : Str
  caseSensitive : Bool
  childrenIndex : Nat
deriving DecidableEq

structure RouteBranch where
  path : Str
  score : Int
  routesMeta : List RouteMeta
deriving DecidableEq

structure RouteMatch where
  params : List (Str × Str)
  pathname : Str
  pathnameBase : Str
  route : Option RouteObject

def dynamicSegmentValue : Int := 3
def indexRouteValue : Int := 2
def emptySegmentValue : Int := 1
def staticSegmentValue : Int := 10
def splatPenalty : Int := -2

def isSplat (s : Str) : Bool := s = ['*']

/-- The test `paramRe.test(segment)` with `paramRe = /^:\w+$/`. -/
def paramReTest : Str → Bool
  | ':' :: rest => !rest.isEmpty && rest.all isWordChar
  | _ => false

/-- `computeScore` from the source. -/
def computeScore (path : Str) (index : Bool) : Int :=
  let segments := splitOnChar '/' path
  let s1 : Int := segments.length
  let s2 := if segments.any isSplat then s1 + splatPenalty else s1
  let s3 := if index then s2 + indexRouteValue else s2
  (segments.filter (fun s => !isSplat s)).foldl
    (fun score segment =>
      score +
        (if paramReTest segment then dynamicSegmentValue
         else if segment.isEmpty then emptySegmentValue
         else staticSegmentValue)) s3

/-- `compareIndexes` from the source. -/
def compareIndexes (a b : List Nat) : Int :=
  if a.length = b.length ∧ a.dropLast = b.dropLast then
    (a.getLastD 0 : Int) - (b.getLastD 0 : Int)
  else 0

/-- The comparator passed to `branches.sort` in `rankRouteBranches`. -/
def branchCompare (a b : RouteBranch) : Int :=
  if a.score ≠ b.score then b.score - a.score
  else
    compareIndexes (a.routesMeta.map (·.childrenIndex))
      (b.routesMeta.map (·.childrenIndex))

/-- Stable insertion of one branch: it goes in front of the first existing
element it compares `≤ 0` against, so an element inserted later in input
order never jumps over one it ties with. -/
def rankInsert (x : RouteBranch) : List RouteBranch → List RouteBranch
  | [] => [x]
  | g :: rest => if branchCompare x g ≤ 0 then x :: g :: rest else g :: rankInsert x rest

/-- `rankRouteBranches` from the source, with `Array.prototype.sort` modelled
as a stable insertion sort. -/
def rankRouteBranches (branches : List RouteBranch) : List RouteBranch :=
  branches.foldr rankInsert []

/-! ### `flattenRoutes` -/

/-- The `routes.forEach` body of `flattenRoutes`; `idx` is the forEach index.
The `invariant` on absolute child paths is modelled with `Except`. -/
def flattenRoutesGo (idx : Nat) (routes : List RouteObject)
    (branches : List RouteBranch) (parentsMeta : List RouteMeta)
    (parentPath : Str) : Except String (List RouteBranch) :=
  match routes with
  | [] => .ok branches
  | route :: rest =>
    let rel0 := route.path.getD []
    let relE : Except String Str :=
      if rel0.head? = some '/' then
        if parentPath.isPrefixOf rel0 then .ok (rel0.drop parentPath.length)
        else .error "Absolute route path nested under path is not valid"
      else .ok rel0
    match relE with
    | .error e => .error e
    | .ok rel =>
      let meta : RouteMeta := ⟨rel, route.caseSensitive, idx⟩
      let path := joinPaths [parentPath, rel]
      let routesMeta := parentsMeta ++ [meta]
      let branches' :=
        if route.path.isNone && !route.index then branches
        else branches ++ [⟨path, computeScore path route.index, routesMeta⟩]
      flattenRoutesGo (idx + 1) rest branches' parentsMeta parentPath

/-- `flattenRoutes` from the source.  Note that the source never recurses into
`route.children`: only the routes of the given sequence are visited. -/
def flattenRoutes (routes : List RouteObject) (branches : List RouteBranch)
    (parentsMeta : List RouteMeta) (parentPath : Str) :
    Except String (List RouteBranch) :=
  flattenRoutesGo 0 routes branches parentsMeta parentPath

/-! ### `matchRouteBranch` and `matchRoutes` -/

/-- `Object.assign(matchedParams, match.params)`: merge the new bindings into
the accumulator, overwriting on name clash. -/
def mergeParams (ps newPs : List (Str × Str)) : List (Str × Str) :=
  newPs.foldl (fun acc kv => setParam acc kv.1 kv.2) ps

/-- Per-step data of `matchRouteBranch` before the shared-`params` object is
attached: all pushed matches alias the same mutable params object in the
source, so every returned `RouteMatch` carries the final accumulated params. -/
structure PreMatch where
  pathname : Str
  pathnameBase : Str
  route : Option RouteObject

/-- The loop of `matchRouteBranch`.  After the first iteration the source
reassigns `routes = []`, so deeper `childrenIndex` lookups read an empty
array. -/
def matchRouteBranchGo (routes : List RouteObject) (pathname : Str) :
    List RouteMeta → Str → List (Str × Str) → List PreMatch →
    Option (List (Str × Str) × List PreMatch)
  | [], _, params, acc => some (params, acc)
  | meta :: rest, matchedPathname, params, acc =>
    let isEnd := rest.isEmpty
    let remainingPathname :=
      if matchedPathname = ['/'] then pathname
      else
        let sliced := pathname.drop matchedPathname.length
        if sliced.isEmpty then ['/'] else sliced
    match matchPath ⟨meta.relativePath, meta.caseSensitive, isEnd⟩ remainingPathname with
    | none => none
    | some m =>
      let params' := mergeParams params m.params
      let route := routes[meta.childrenIndex]?
      let acc' := acc ++
        [⟨joinPaths [matchedPathname, m.pathname],
          joinPaths [matchedPathname, m.pathnameBase], route⟩]
      let matchedPathname' :=
        if m.pathnameBase ≠ ['/'] then joinPaths [matchedPathname, m.pathnameBase]
        else matchedPathname
      matchRouteBranchGo [] pathname rest matchedPathname' params' acc'

/-- `matchRouteBranch` from the source. -/
def matchRouteBranch (branch : RouteBranch) (routes : List RouteObject)
    (pathname : Str) : Option (List RouteMatch) :=
  (matchRouteBranchGo routes pathname branch.routesMeta ['/'] [] []).map
    (fun pr => pr.2.map (fun st => ⟨pr.1, st.pathname, st.pathnameBase, st.route⟩))

/-- `stripBasename` from the source. -/
def stripBasename (pathname basename : Str) : Option Str :=
  if basename = ['/'] then some pathname
  else if !((lowerStr basename).isPrefixOf (lowerStr pathname)) then none
  else
    match (pathname.drop basename.length).head? with
    | some c =>
      if c ≠ '/' then none else some (pathname.drop basename.length)
    | none => some ['/']

/-- `location.pathname || '/'`. -/
def orSlash : Option Str → Str
  | some q => if q.isEmpty then ['/'] else q
  | none => ['/']

/-- `matchRoutes` from the source, for a string `locationArg` (parsed with
`parsePath`).  The `invariant` that `flattenRoutes` may raise propagates as
an `Except` error, mirroring the thrown exception. -/
def matchRoutes (routes : List RouteObject) (locationArg : Str) (basename : Str) :
    Except String (Option (List RouteMatch)) :=
  let location := parsePath locationArg
  match stripBasename (orSlash location.pathname) basename with
  | none => .ok none
  | some pathname => do
    let branches ← flattenRoutes routes [] [] []
    let ranked := rankRouteBranches branches
    pure (ranked.findSome? (fun b => matchRouteBranch b routes pathname))

/-! ### Path resolution -/

structure PathParts where
  pathname : Str
  search : Str
  hash : Str
deriving DecidableEq

def normalizeSearch (search : Str) : Str :=
  if search.isEmpty || search = ['?'] then []
  else if search.head? = some '?' then search
  else '?' :: search

def normalizeHash (hash : Str) : Str :=
  if hash.isEmpty || hash = ['#'] then []
  else if hash.head? = some '#' then hash
  else '#' :: hash

/-- `resolvePathname` from the source. -/
def resolvePathname (relativePath fromPathname : Str) : Str :=
  let segments := splitOnChar '/' (dropTrailingSlashes fromPathname)
  let relativeSegments := splitOnChar '/' relativePath
  let segs := relativeSegments.foldl
    (fun segs segment =>
      if segment = ['.', '.'] then
        if 1 < segs.length then segs.dropLast else segs
      else if segment ≠ ['.'] then segs ++ [segment]
      else segs) segments
  if 1 < segs.length then joinWithChar '/' segs else ['/']

/-- `resolvePath` from the source, for an already-parsed `to` value.  A JS
empty-string pathname is falsy, hence the `isEmpty` test. -/
def resolvePath (toParsed : ParsedPath) (fromPathname : Str) : PathParts :=
  let pathname :=
    match toParsed.pathname with
    | none => fromPathname
    | some p =>
      if p.isEmpty then fromPathname
      else if p.head? = some '/' then p
      else resolvePathname p fromPathname
  ⟨pathname, normalizeSearch (toParsed.search.getD []), normalizeHash (toParsed.hash.getD [])⟩

/-- The `while (toSegments[0] === '..')` loop of `resolveTo` counts and
removes the leading `..` segments. -/
def countLeadingDotDot (segs : List Str) : Nat :=
  (segs.takeWhile (· = ['.', '.'])).length

/-- The trailing-slash restoration at the end of `resolveTo`. -/
def fixupTrailingSlash (toPathname : Str) (path : PathParts) : PathParts :=
  if !toPathname.isEmpty && toPathname ≠ ['/'] && toPathname.getLast? = some '/'
      && path.pathname.getLast? ≠ some '/' then
    ⟨path.pathname ++ ['/'], path.search, path.hash⟩
  else path

/-- `resolveTo` from the source, for a string `toArg`. -/
def resolveTo (toArg : Str) (routePathnames : List Str)
    (locationPathname : Str) : PathParts :=
  let parsed := parsePath toArg
  let toPathname : Option Str := if toArg.isEmpty then some ['/'] else parsed.pathname
  match toPathname with
  | none => resolvePath parsed locationPathname
  | some tp =>
    let stepped :=
      if tp.take 2 = ['.', '.'] then
        let segs := splitOnChar '/' tp
        let k := countLeadingDotDot segs
        (⟨some (joinWithChar '/' (segs.drop k)), parsed.search, parsed.hash⟩, k)
      else (parsed, 0)
    let idx : Int := (routePathnames.length : Int) - 1 - (stepped.2 : Int)
    let fromPathname :=
      if 0 ≤ idx then (routePathnames[idx.toNat]?).getD ['/'] else ['/']
    fixupTrailingSlash tp (resolvePath stepped.1 fromPathname)

/-! ### Spec-side definitions

These follow the words of the specification, for comparison with the
source-translated definitions above. -/

/-- The scoring formula exactly as the spec states it: segment count, minus 2
if any segment is `*`, plus 2 for an index route, plus 10/3/1 per non-splat
segment. -/
def specScore (path : Str) (index : Bool) : Int :=
  let segs := splitOnChar '/' path
  (segs.length : Int) + (if segs.any isSplat then -2 else 0) +
    (if index then 2 else 0) +
    ((segs.filter (fun s => !isSplat s)).map
      (fun s =>
        if paramReTest s then (3 : Int) else if s.isEmpty then 1 else 10)).sum

/-- The flattened branch list as the code actually produces it: one branch
per top-level route that has a path or the index flag, in declaration order;
children are never visited. -/
def specFlattenFrom (idx : Nat) : List RouteObject → List RouteBranch
  | [] => []
  | route :: rest =>
    let rel := route.path.getD []
    let path := joinPaths [[], rel]
    (if route.path.isNone && !route.index then []
     else [⟨path, computeScore path route.index, [⟨rel, route.caseSensitive, idx⟩]⟩]) ++
      specFlattenFrom (idx + 1) rest

def specFlatten (routes : List RouteObject) : List RouteBranch :=
  specFlattenFrom 0 routes

/-! ### A pattern grammar for the round-trip claim

`GenSeg` renders to the patterns the round-trip claim quantifies over:
slash-separated segments that are each either a plain literal or `:name`. -/

inductive GenSeg where
  | lit (s : Str)
  | pvar (name : Str)

def renderSeg : GenSeg → Str
  | .lit s => s
  | .pvar n => ':' :: n

def renderPattern (segs : List GenSeg) : Str :=
  '/' :: joinWithChar '/' (segs.map renderSeg)

/-- A literal segment: non-empty, without `/`, `:` or `*`. -/
def litOK (s : Str) : Bool :=
  !s.isEmpty && s.all (fun c => c ≠ '/' && c ≠ ':' && c ≠ '*')

/-- A parameter name: non-empty word characters. -/
def nameOK (n : Str) : Bool := !n.isEmpty && n.all isWordChar

def segOK : GenSeg → Bool
  | .lit s => litOK s
  | .pvar n => nameOK n

/-- A URL-safe parameter value, formalising the claim's "URL-safe": non-empty
and free of `/` (it must stay one segment), `%` (no percent-decoding) and `*`
(no interaction with splat replacement). -/
def valOK (v : Str) : Bool :=
  !v.isEmpty && v.all (fun c => c ≠ '/' && c ≠ '%' && c ≠ '*')

def namesOf (segs : List GenSeg) : List Str :=
  segs.filterMap (fun s => match s with | .pvar n => some n | .lit _ => none)

/-- The matcher tokens one rendered segment compiles to. -/
def segToks : GenSeg → List PTok
  | .lit s => s.map .lit
  | .pvar _ => [.prm]

/-- The matcher tokens the rendered pattern body compiles to, after the
leading slash. -/
def toksOf : List GenSeg → List PTok
  | [] => []
  | sg :: more =>
    segToks sg ++
      (match more with
       | [] => []
       | _ :: _ => .lit '/' :: toksOf more)

/-- One segment of the generated pathname: the literal itself, or the
parameter's value. -/
def segVal (params : Str → Option Str) : GenSeg → Str
  | .lit s => s
  | .pvar n => (params n).getD []

/-- The generated pathname after the leading slash. -/
def valsOf (params : Str → Option Str) (segs : List GenSeg) : Str :=
  joinWithChar '/' (segs.map (segVal params))

/-- Segments of the round-trip witness: the pattern `/users/:id`. -/
def csegs : List GenSeg := [.lit "users".toList, .pvar "id".toList]

/-- Params of the round-trip witness: `id ↦ 42`. -/
def cparams : Str → Option Str :=
  fun n => if n = "id".toList then some ("42".toList) else none

/-! ### Relations and constants used by the theorems below -/

/-- The match data of a `PathMatch` without the `pattern` back-reference. -/
def pathMatchData (m : PathMatch) : List (Str × Str) × Str × Str :=
  (m.params, m.pathname, m.pathnameBase)

/-- Descending-score order between branches. -/
def scoreGE (a b : RouteBranch) : Prop := b.score ≤ a.score

/-- The last `childrenIndex` of a branch (`0` for an empty chain, as the
source's `a[a.length - 1]` is only reached on non-empty chains). -/
def lastIdxOf (a : RouteBranch) : Nat :=
  (a.routesMeta.map (·.childrenIndex)).getLastD 0

/-- The sibling condition of `compareIndexes`: equal chain length and equal
`childrenIndex` chains except possibly the last entry. -/
def siblingBranches (a b : RouteBranch) : Prop :=
  (a.routesMeta.map (·.childrenIndex)).length =
      (b.routesMeta.map (·.childrenIndex)).length ∧
    (a.routesMeta.map (·.childrenIndex)).dropLast =
      (b.routesMeta.map (·.childrenIndex)).dropLast

/-- The ranking order the spec describes on sibling-compatible inputs:
score descending, then last `childrenIndex` ascending. -/
def rankLex (a b : RouteBranch) : Prop :=
  b.score < a.score ∨ (a.score = b.score ∧ lastIdxOf a ≤ lastIdxOf b)

/-- Branch with last sibling index 2 (declared first in the C3 instance). -/
def branchX : RouteBranch := ⟨"/x".toList, 13, [⟨"/x".toList, false, 2⟩]⟩

/-- Branch with last sibling index 1, a sibling of `branchX`. -/
def branchY : RouteBranch := ⟨"/y".toList, 13, [⟨"/y".toList, false, 1⟩]⟩

/-- An equal-score branch with a two-element meta chain, hence not a sibling
of `branchX` or `branchY`. -/
def branchZ : RouteBranch :=
  ⟨"/z".toList, 13, [⟨[], false, 0⟩, ⟨"/z".toList, false, 0⟩]⟩

def routeUserId : RouteObject := .mk (some "/users/:id".toList) false false []

def routeUserNew : RouteObject := .mk (some "/users/new".toList) false false []

def routeChildB : RouteObject := .mk (some "b".toList) false false []

def routeParentA : RouteObject := .mk (some "/a".toList) false false [routeChildB]

/-- A two-step branch as would arise from flattening `routeParentA` with its
child, used to exercise the `matchRouteBranch` chain walk directly. -/
def branchAB : RouteBranch :=
  ⟨"/a/b".toList, 0, [⟨"/a".toList, false, 0⟩, ⟨"b".toList, false, 0⟩]⟩

/-- A pathless, non-index grouping route with a matchable child. -/
def routeGroup : RouteObject :=
  .mk none false false [.mk (some "/a".toList) false false []]

/-- The value `matchRouteBranch branchAB [routeParentA] "/a/b"` computes. -/
def matchAB : List RouteMatch :=
  [⟨[], "/a".toList, "/a".toList, some routeParentA⟩,
   ⟨[], "/a/b".toList, "/a/b".toList, none⟩]

/-! ## Supporting lemmas -/

theorem foldl_add_eq_add_sum (f : Str → Int) (l : List Str) (init : Int) :
    l.foldl (fun a x => a + f x) init = init + (l.map f).sum := by
  induction l generalizing init with
  | nil => simp
  | cons x xs ih => simp [ih, add_assoc]

theorem splitOnChar_ne_nil (c : Char) (s : Str) : splitOnChar c s ≠ [] := by
  cases s with
  | nil => simp [splitOnChar]
  | cons x xs =>
    simp only [splitOnChar]
    split <;> simp

theorem splitOnChar_append_sep (c : Char) (xs ys : Str) :
    splitOnChar c (xs ++ c :: ys) = splitOnChar c xs ++ splitOnChar c ys := by
  induction xs with
  | nil => simp [splitOnChar]
  | cons x xs ih =>
    by_cases hx : x = c
    · subst hx
      simp [splitOnChar, ih]
    · obtain ⟨h, t, heq⟩ := List.exists_cons_of_ne_nil (splitOnChar_ne_nil c xs)
      simp [splitOnChar, hx, ih, heq]

theorem splitOnChar_no_sep (c : Char) (s : Str) (h : ∀ x ∈ s, x ≠ c) :
    splitOnChar c s = [s] := by
  induction s with
  | nil => simp [splitOnChar]
  | cons x xs ih =>
    have hx : x ≠ c := h x (List.mem_cons_self x xs)
    have hxs := ih (fun y hy => h y (List.mem_cons_of_mem x hy))
    simp [splitOnChar, hx, hxs]

theorem computeScore_eq_specScore (p : Str) (b : Bool) :
    computeScore p b = specScore p b := by
  unfold computeScore specScore
  rw [foldl_add_eq_add_sum]
  simp only [dynamicSegmentValue, emptySegmentValue, staticSegmentValue,
    indexRouteValue, splatPenalty]
  cases h1 : (splitOnChar '/' p).any isSplat <;> cases b <;> simp [h1]

theorem computeScore_append_seg (p seg : Str) (b : Bool)
    (hs : ∀ x ∈ seg, x ≠ '/') (hns : isSplat seg = false) :
    computeScore (p ++ '/' :: seg) b =
      computeScore p b + 1 +
        (if paramReTest seg then 3 else if seg.isEmpty then 1 else 10) := by
  rw [computeScore_eq_specScore, computeScore_eq_specScore]
  have hsplit : splitOnChar '/' (p ++ '/' :: seg) = splitOnChar '/' p ++ [seg] := by
    rw [splitOnChar_append_sep, splitOnChar_no_sep '/' seg hs]
  unfold specScore
  rw [hsplit]
  simp only [List.any_append, List.filter_append, List.map_append, List.sum_append,
    List.length_append]
  rw [show [seg].any isSplat = false by simp [hns]]
  rw [show [seg].filter (fun s => !isSplat s) = [seg] by simp [hns]]
  simp only [Bool.or_false, List.map_cons, List.map_nil, List.sum_cons, List.sum_nil,
    List.length_cons, List.length_nil]
  cases h1 : (splitOnChar '/' p).any isSplat <;> cases b <;>
    simp only [h1, if_true, if_false, Bool.false_eq_true, Bool.true_eq_false] <;>
    push_cast <;> ring

theorem isWordChar_ne_slash (c : Char) (h : isWordChar c = true) : c ≠ '/' := by
  intro hc
  subst hc
  simp [isWordChar] at h

/-! ## Claim C1 -/

/-- C1 (amended): `computeScore(p, b)` equals exactly the formula the claim
states — segment count, minus 2 when any segment is `*`, plus 2 when the
index flag is set, plus 10/3/1 per non-splat static/dynamic/empty segment —
and the score is by construction a pure function of the path string and
index flag.  However, appending a static segment increases the score by
exactly 11 (its 10 points plus 1 for the added segment count), and appending
a dynamic `:name` segment increases it by exactly 4 (3 plus 1), not by 10
and 3 as claimed; the index flag adds exactly 2. -/
theorem computeScore_spec_and_increments :
    (∀ p b, computeScore p b = specScore p b) ∧
    (∀ p seg b, (∀ x ∈ seg, x ≠ '/') → isSplat seg = false →
      paramReTest seg = false → seg.isEmpty = false →
      computeScore (p ++ '/' :: seg) b = computeScore p b + 11) ∧
    (∀ p name b, nameOK name = true →
      computeScore (p ++ '/' :: ':' :: name) b = computeScore p b + 4) ∧
    (∀ p, computeScore p true = computeScore p false + 2) := by
  refine ⟨computeScore_eq_specScore, ?_, ?_, ?_⟩
  · intro p seg b hs hns hnp hne
    rw [computeScore_append_seg p seg b hs hns, hnp, hne]
    simp
    ring
  · intro p name b hn
    have hwf : ∀ x ∈ name, isWordChar x = true := by
      have := (by simpa [nameOK] using hn : ¬name = [] ∧ ∀ x ∈ name, isWordChar x = true)
      exact this.2
    have hs : ∀ x ∈ (':' :: name), x ≠ '/' := by
      intro x hx
      rcases List.mem_cons.mp hx with h | h
      · subst h; decide
      · exact isWordChar_ne_slash x (hwf x h)
    have hns : isSplat (':' :: name) = false := by
      simp [isSplat]
    have hp : paramReTest (':' :: name) = true := by
      simpa [paramReTest, nameOK] using hn
    rw [computeScore_append_seg p (':' :: name) b hs hns, hp]
    simp
    ring
  · intro p
    rw [computeScore_eq_specScore, computeScore_eq_specScore]
    unfold specScore
    simp
    ring

/-- Witness for C1 at concrete inputs. -/
theorem computeScore_spec_and_increments_wit :
    computeScore ("/users".toList) false = specScore ("/users".toList) false ∧
    computeScore ("/users".toList ++ '/' :: "new".toList) false =
      computeScore ("/users".toList) false + 11 ∧
    computeScore ("/users".toList ++ '/' :: ':' :: "id".toList) false =
      computeScore ("/users".toList) false + 4 ∧
    computeScore ("/users".toList) true = computeScore ("/users".toList) false + 2 :=
  ⟨computeScore_spec_and_increments.1 _ _,
   computeScore_spec_and_increments.2.1 _ _ _ (by decide) (by decide) (by decide)
     (by decide),
   computeScore_spec_and_increments.2.2.1 _ _ _ (by decide),
   computeScore_spec_and_increments.2.2.2 _⟩

/-- C1 counterexample: the code gives `/users/new` score 24 and `/users`
score 13, so appending the static segment `new` raises the score by 11,
not by 10 as the claim's "increases the score by exactly 10" asserts. -/
theorem computeScore_increment_cex :
    computeScore ("/users/new".toList) false = 24 ∧
    computeScore ("/users".toList) false = 13 ∧
    ¬ computeScore ("/users/new".toList) false =
        computeScore ("/users".toList) false + 10 := by
  decide

/-! ## Lemmas on ranking -/

theorem mem_rankInsert {y x : RouteBranch} {t : List RouteBranch} :
    y ∈ rankInsert x t ↔ y = x ∨ y ∈ t := by
  induction t with
  | nil => simp [rankInsert]
  | cons g rest ih =>
    simp only [rankInsert]
    split
    · simp [List.mem_cons]
    · simp [List.mem_cons, ih]
      tauto

theorem sublist_rankInsert (x : RouteBranch) (t : List RouteBranch) :
    List.Sublist t (rankInsert x t) := by
  induction t with
  | nil => simp [rankInsert]
  | cons g rest ih =>
    simp only [rankInsert]
    split
    · exact List.sublist_cons_self x (g :: rest)
    · exact List.Sublist.cons₂ g ih

theorem rankInsert_pairwise_of (R : RouteBranch → RouteBranch → Prop)
    (htrans : ∀ a b c, R a b → R b c → R a c)
    (x : RouteBranch) (t : List RouteBranch) (ht : t.Pairwise R)
    (hx : ∀ g ∈ t, (branchCompare x g ≤ 0 → R x g) ∧ (0 < branchCompare x g → R g x)) :
    (rankInsert x t).Pairwise R := by
  induction t with
  | nil => simp [rankInsert]
  | cons g rest ih =>
    rcases List.pairwise_cons.mp ht with ⟨hg, hrest⟩
    simp only [rankInsert]
    by_cases hc : branchCompare x g ≤ 0
    · rw [if_pos hc]
      refine List.Pairwise.cons ?_ ht
      intro y hy
      rcases List.mem_cons.mp hy with h | h
      · subst h
        exact (hx y (List.mem_cons_self y rest)).1 hc
      · exact htrans x g y ((hx g (List.mem_cons_self g rest)).1 hc) (hg y h)
    · rw [if_neg hc]
      refine List.Pairwise.cons ?_
        (ih hrest (fun y hy => hx y (List.mem_cons_of_mem g hy)))
      intro y hy
      rcases mem_rankInsert.mp hy with h | h
      · subst h
        exact (hx g (List.mem_cons_self g rest)).2 (by omega)
      · exact hg y h

theorem mem_rankRouteBranches {y : RouteBranch} {l : List RouteBranch} :
    y ∈ rankRouteBranches l ↔ y ∈ l := by
  induction l with
  | nil => simp [rankRouteBranches]
  | cons a l ih =>
    show y ∈ rankInsert a (rankRouteBranches l) ↔ _
    simp [mem_rankInsert, ih, List.mem_cons]

theorem rank_pairwise_of (R : RouteBranch → RouteBranch → Prop)
    (htrans : ∀ a b c, R a b → R b c → R a c) (l : List RouteBranch)
    (h : ∀ x ∈ l, ∀ g ∈ l,
      (branchCompare x g ≤ 0 → R x g) ∧ (0 < branchCompare x g → R g x)) :
    (rankRouteBranches l).Pairwise R := by
  induction l with
  | nil => simp [rankRouteBranches]
  | cons a l ih =>
    show (rankInsert a (rankRouteBranches l)).Pairwise R
    refine rankInsert_pairwise_of R htrans a _
      (ih ?_) ?_
    · intro x hx g hg
      exact h x (List.mem_cons_of_mem a hx) g (List.mem_cons_of_mem a hg)
    · intro g hg
      exact h a (List.mem_cons_self a l) g
        (List.mem_cons_of_mem a (mem_rankRouteBranches.mp hg))

theorem branchCompare_le_score {x g : RouteBranch}
    (h : branchCompare x g ≤ 0) : g.score ≤ x.score := by
  unfold branchCompare at h
  by_cases hs : x.score = g.score
  · omega
  · rw [if_pos hs] at h
    omega

theorem branchCompare_pos_score {x g : RouteBranch}
    (h : 0 < branchCompare x g) : x.score ≤ g.score := by
  unfold branchCompare at h
  by_cases hs : x.score = g.score
  · omega
  · rw [if_pos hs] at h
    omega

theorem branchCompare_lex (x g : RouteBranch)
    (hsib : x.score = g.score → siblingBranches x g) :
    (branchCompare x g ≤ 0 → rankLex x g) ∧ (0 < branchCompare x g → rankLex g x) := by
  unfold branchCompare rankLex
  by_cases hs : x.score = g.score
  · obtain ⟨hlen, hdrop⟩ := hsib hs
    rw [if_neg (by simpa using hs)]
    unfold compareIndexes
    rw [if_pos ⟨hlen, hdrop⟩]
    unfold lastIdxOf
    constructor
    · intro h
      right
      exact ⟨hs, by omega⟩
    · intro h
      right
      exact ⟨hs.symm, by omega⟩
  · rw [if_pos hs]
    constructor
    · intro h
      left
      omega
    · intro h
      left
      omega

theorem rankLex_trans : ∀ a b c, rankLex a b → rankLex b c → rankLex a c := by
  intro a b c h1 h2
  unfold rankLex at *
  rcases h1 with h1 | ⟨e1, l1⟩ <;> rcases h2 with h2 | ⟨e2, l2⟩
  · left; omega
  · left; omega
  · left; omega
  · right; exact ⟨e1.trans e2, l1.trans l2⟩

theorem rankInsert_pair (x b : RouteBranch) (t : List RouteBranch)
    (hb : List.Sublist [b] t) (hcmp : branchCompare x b ≤ 0) :
    List.Sublist [x, b] (rankInsert x t) := by
  induction t with
  | nil => simp at hb
  | cons g rest ih =>
    simp only [rankInsert]
    by_cases hc : branchCompare x g ≤ 0
    · rw [if_pos hc]
      exact List.Sublist.cons₂ x hb
    · rw [if_neg hc]
      cases hb with
      | cons _ h => exact List.Sublist.cons g (ih h)
      | cons₂ _ h => exact absurd hcmp hc

theorem rank_stable_pair (l : List RouteBranch) (x b : RouteBranch)
    (h : List.Sublist [x, b] l) (hc : branchCompare x b ≤ 0) :
    List.Sublist [x, b] (rankRouteBranches l) := by
  induction l with
  | nil => simp at h
  | cons a l ih =>
    show List.Sublist [x, b] (rankInsert a (rankRouteBranches l))
    cases h with
    | cons _ h2 => exact (ih h2).trans (sublist_rankInsert a _)
    | cons₂ _ h2 =>
      exact rankInsert_pair _ b _
        (List.singleton_sublist.mpr (mem_rankRouteBranches.mpr
          (List.singleton_sublist.mp h2))) hc

/-! ## Claim C3 -/

/-- C3 (amended): `rankRouteBranches` always orders branches by score
descending, and is stable in the sense that any two branches comparing `≤ 0`
in input order keep their relative order — in particular two equal-score
branches that are not siblings (comparator 0) are left in input order, and
the ranking of a fixed input is deterministic (a pure function).  When every
two equal-score branches of the list are siblings — which holds for every
list `flattenRoutes` produces, as all its meta chains have length 1 — the
result is fully ordered by score descending then last `childrenIndex`
ascending.  The unrestricted sibling tie-break of the claim fails when an
equal-score non-sibling separates two siblings (see the counterexample). -/
theorem rankRouteBranches_order :
    (∀ l, (rankRouteBranches l).Pairwise scoreGE) ∧
    (∀ l x b, List.Sublist [x, b] l → branchCompare x b ≤ 0 →
      List.Sublist [x, b] (rankRouteBranches l)) ∧
    (∀ l, (∀ x ∈ l, ∀ g ∈ l, x.score = g.score → siblingBranches x g) →
      (rankRouteBranches l).Pairwise rankLex) := by
  refine ⟨?_, rank_stable_pair, ?_⟩
  · intro l
    refine rank_pairwise_of scoreGE ?_ l ?_
    · intro a b c h1 h2
      exact le_trans h2 h1
    · intro x _ g _
      exact ⟨branchCompare_le_score, branchCompare_pos_score⟩
  · intro l hl
    refine rank_pairwise_of rankLex rankLex_trans l ?_
    intro x hx g hg
    exact branchCompare_lex x g (fun hs => hl x hx g hg hs)

/-- Witness for C3 at concrete inputs. -/
theorem rankRouteBranches_order_wit :
    (rankRouteBranches [branchX, branchY]).Pairwise scoreGE ∧
    List.Sublist [branchX, branchZ] (rankRouteBranches [branchX, branchZ]) ∧
    (rankRouteBranches [branchX, branchY]).Pairwise rankLex :=
  ⟨rankRouteBranches_order.1 _,
   rankRouteBranches_order.2.1 _ _ _ (by decide) (by decide),
   rankRouteBranches_order.2.2 _ (by
     intro x hx g hg _
     fin_cases hx <;> fin_cases hg <;> exact ⟨rfl, rfl⟩)⟩

/-- C3 counterexample: with the equal-score non-sibling `branchZ` between the
siblings `branchX` (last index 2) and `branchY` (last index 1), ranking
leaves the input order unchanged, so `branchX` still comes before `branchY`
even though both have equal score, are siblings, and `branchY` has the lower
last `childrenIndex` — contradicting the claim's unrestricted sibling
tie-break.  (The modelled stable sort agrees with the binary-insertion
behaviour of the major JS engines on this input.) -/
theorem rank_sibling_cex :
    rankRouteBranches [branchX, branchZ, branchY] = [branchX, branchZ, branchY] ∧
    branchX.score = branchY.score ∧
    siblingBranches branchX branchY ∧
    lastIdxOf branchY < lastIdxOf branchX :=
  ⟨by decide, rfl, ⟨rfl, rfl⟩, by decide⟩

/-! ## Lemmas on flattening -/

theorem flattenGo_top (routes : List RouteObject) :
    ∀ idx branches, flattenRoutesGo idx routes branches [] [] =
      .ok (branches ++ specFlattenFrom idx routes) := by
  induction routes with
  | nil =>
    intro idx branches
    simp [flattenRoutesGo, specFlattenFrom]
  | cons route rest ih =>
    intro idx branches
    have hpref : (([] : Str)).isPrefixOf (route.path.getD []) = true :=
      List.isPrefixOf_nil_left
    simp only [flattenRoutesGo, hpref, List.length_nil, List.drop_zero, if_true,
      List.nil_append]
    have hrel :
        (if (route.path.getD []).head? = some '/' then
            (Except.ok (route.path.getD []) : Except String Str)
          else .ok (route.path.getD [])) = .ok (route.path.getD []) := by
      split <;> rfl
    rw [hrel]
    by_cases hskip : (route.path.isNone && !route.index) = true
    · simp only [hskip, if_true, ih]
      simp [specFlattenFrom, hskip]
    · simp only [Bool.not_eq_true] at hskip
      simp only [hskip, if_false, ih]
      simp [specFlattenFrom, hskip, List.append_assoc]

/-! ## Claim C4 -/

/-- C4 (amended): a route with no path and no index flag contributes no
branch, but — contrary to the second half of the claim — its children are
never visited: `flattenRoutes` only walks the top-level sequence, producing
exactly one branch per top-level route that has a path or the index flag, in
declaration order, so descendants of a pathless grouping route contribute
nothing at all. -/
theorem flattenRoutes_top_level_only :
    ∀ routes, flattenRoutes routes [] [] [] = .ok (specFlatten routes) := by
  intro routes
  unfold flattenRoutes specFlatten
  rw [flattenGo_top routes 0 []]
  simp

/-- C4 counterexample: a pathless, non-index route with a matchable child
route `/a` flattens to the empty branch list — no branch for the descendant
appears, refuting "branches for matchable descendants of a pathless grouping
route do appear in the flattened branch list". -/
theorem flattenRoutes_children_cex :
    flattenRoutes [routeGroup] [] [] [] = .ok [] ∧ routeGroup.children ≠ [] :=
  ⟨rfl, by simp [routeGroup, RouteObject.children]⟩

/-! ## Lemmas on branch matching -/

theorem matchGo_empty_routes (metas : List RouteMeta) :
    ∀ pn mp params acc res,
      matchRouteBranchGo [] pn metas mp params acc = some res →
      ∃ ext, res.2 = acc ++ ext ∧ ext.length = metas.length ∧
        ∀ pm ∈ ext, pm.route = none := by
  induction metas with
  | nil =>
    intro pn mp params acc res h
    simp only [matchRouteBranchGo, Option.some_inj] at h
    exact ⟨[], by simp [← h], by simp, by simp⟩
  | cons meta rest ih =>
    intro pn mp params acc res h
    simp only [matchRouteBranchGo] at h
    set rem :=
      if mp = ['/'] then pn
      else if (pn.drop mp.length).isEmpty then ['/'] else pn.drop mp.length with hrem
    cases hm : matchPath ⟨meta.relativePath, meta.caseSensitive, rest.isEmpty⟩ rem with
    | none =>
      rw [hrem] at hm
      rw [hm] at h
      cases h
    | some m =>
      rw [hrem] at hm
      rw [hm] at h
      obtain ⟨ext, hext, hlen, hall⟩ := ih _ _ _ _ _ h
      refine ⟨⟨joinPaths [mp, m.pathname], joinPaths [mp, m.pathnameBase],
        (([] : List RouteObject))[meta.childrenIndex]?⟩ :: ext, ?_, by simp [hlen], ?_⟩
      · rw [hext]
        simp
      · intro pm hpm
        rcases List.mem_cons.mp hpm with hpm | hpm
        · subst hpm
          simp
        · exact hall pm hpm

/-! ## Claim C5 -/

/-- C5 (amended): on a successful `matchRouteBranch`, the result has one
`RouteMatch` per chain element and the first `RouteMatch` carries the route
obtained by indexing the original top-level route list with the first
element's `childrenIndex` — but, contrary to the claim, every later
`RouteMatch` carries no route at all (`none`): the source reassigns
`routes = []` after the first iteration instead of descending into the
matched route's children, so deeper lookups index an empty list. -/
theorem matchRouteBranch_route_resolution (branch : RouteBranch)
    (routes : List RouteObject) (pathname : Str) (ms : List RouteMatch)
    (h : matchRouteBranch branch routes pathname = some ms) :
    ms.length = branch.routesMeta.length ∧
    (∀ m0, ms.head? = some m0 →
      m0.route = branch.routesMeta.head?.bind
        (fun meta => routes[meta.childrenIndex]?)) ∧
    (∀ i m, 1 ≤ i → ms[i]? = some m → m.route = none) := by
  unfold matchRouteBranch at h
  cases hgo : matchRouteBranchGo routes pathname branch.routesMeta ['/'] [] [] with
  | none =>
    rw [hgo] at h
    cases h
  | some pr =>
    rw [hgo] at h
    simp only [Option.map_some', Option.some_inj] at h
    subst h
    cases hmetas : branch.routesMeta with
    | nil =>
      rw [hmetas] at hgo
      simp only [matchRouteBranchGo, Option.some_inj] at hgo
      subst hgo
      refine ⟨by simp, by simp, ?_⟩
      intro i m _ hm
      simp at hm
    | cons meta rest =>
      rw [hmetas] at hgo
      simp only [matchRouteBranchGo] at hgo
      cases hm : matchPath ⟨meta.relativePath, meta.caseSensitive, rest.isEmpty⟩
          pathname with
      | none =>
        rw [if_pos trivial, hm] at hgo
        cases hgo
      | some m =>
        rw [if_pos trivial, hm] at hgo
        obtain ⟨ext, hext, hlen, hall⟩ := matchGo_empty_routes rest _ _ _ _ _ hgo
        rw [hext]
        simp only [List.nil_append, List.singleton_append] at hext ⊢
        refine ⟨by simp [hlen], ?_, ?_⟩
        · intro m0 hm0
          simp only [List.map_cons, List.head?_cons, Option.some_inj] at hm0
          subst hm0
          simp
        · intro i mm hi hmm
          cases i with
          | zero => omega
          | succ j =>
            simp only [List.map_cons, List.getElem?_cons_succ] at hmm
            rw [List.getElem?_map] at hmm
            cases hj : ext[j]? with
            | none =>
              rw [hj] at hmm
              cases hmm
            | some pm =>
              rw [hj] at hmm
              simp only [Option.map_some', Option.some_inj] at hmm
              subst hmm
              simpa using hall pm (List.getElem?_mem hj)

/-- Witness for C5 at concrete inputs. -/
theorem matchRouteBranch_route_resolution_wit :
    matchAB.length = branchAB.routesMeta.length ∧
    (⟨[], "/a".toList, "/a".toList, some routeParentA⟩ : RouteMatch).route =
      branchAB.routesMeta.head?.bind
        (fun meta => [routeParentA][meta.childrenIndex]?) ∧
    (⟨[], "/a/b".toList, "/a/b".toList, none⟩ : RouteMatch).route = none := by
  have h := matchRouteBranch_route_resolution branchAB [routeParentA]
    ("/a/b".toList) matchAB rfl
  exact ⟨h.1, h.2.1 _ rfl, h.2.2 1 _ (le_refl 1) rfl⟩

/-- C5 counterexample: matching the two-step branch of `/a` → `b` against
`/a/b` resolves the first `RouteMatch` to the parent route, but the second
`RouteMatch` carries `none` — not the parent's child `routeChildB` that the
claim says is resolved from the matched route's own children. -/
theorem matchRouteBranch_child_cex :
    (matchRouteBranch branchAB [routeParentA] ("/a/b".toList)).map
        (fun ms => ms.map (·.route)) =
      some [some routeParentA, none] ∧
    routeParentA.children = [routeChildB] ∧
    (none : Option RouteObject) ≠ some routeChildB :=
  ⟨rfl, rfl, by simp⟩

/-! ## Lemmas on `parsePath`, `stripBasename` and `matchRoutes` -/

theorem parsePath_pathname_props (p q : Str)
    (h : (parsePath p).pathname = some q) : q ≠ [] ∧ '#' ∉ q ∧ '?' ∉ q := by
  unfold parsePath at h
  by_cases hp : p.isEmpty
  · rw [if_pos hp] at h
    cases h
  · rw [if_neg hp] at h
    simp only at h
    split at h
    · cases h
    · next hne =>
      cases h
      refine ⟨by simpa using hne, ?_, ?_⟩
      · intro hmem
        have := List.mem_takeWhile_imp ((List.takeWhile_sublist _).subset hmem)
        simp at this
      · intro hmem
        have := List.mem_takeWhile_imp hmem
        simp at this

theorem orSlash_props (o : Option Str) (h : ∀ q, o = some q → q ≠ [] ∧ '#' ∉ q ∧ '?' ∉ q) :
    orSlash o ≠ [] ∧ '#' ∉ orSlash o ∧ '?' ∉ orSlash o := by
  cases o with
  | none => simp [orSlash]
  | some q =>
    obtain ⟨hne, h1, h2⟩ := h q rfl
    simp only [orSlash]
    rw [if_neg (by simpa using hne)]
    exact ⟨hne, h1, h2⟩

theorem stripBasename_some_props (pn b s : Str) (hb : b ≠ ['/'])
    (h : stripBasename pn b = some s) :
    s ≠ [] ∧ ∀ c ∈ s, c ∈ pn ∨ c = '/' := by
  unfold stripBasename at h
  rw [if_neg hb] at h
  split at h
  · cases h
  · split at h
    · next c hc =>
      split at h
      · cases h
      · cases h
        refine ⟨?_, ?_⟩
        · intro hnil
          rw [hnil] at hc
          cases hc
        · intro x hx
          exact Or.inl (List.mem_of_mem_drop hx)
    · cases h
      simp

theorem parsePath_clean (s : Str) (hne : s ≠ []) (h1 : '#' ∉ s) (h2 : '?' ∉ s) :
    parsePath s = ⟨some s, none, none⟩ := by
  unfold parsePath
  rw [if_neg (by simpa using hne)]
  have hc1 : s.contains '#' = false := by simpa using h1
  have ht1 : s.takeWhile (fun x => x ≠ '#') = s :=
    List.takeWhile_eq_self_iff.mpr (by
      intro x hx
      simp only [decide_eq_true_eq]
      intro hxe
      exact h1 (hxe ▸ hx))
  simp only [hc1, ht1, if_false, Bool.false_eq_true]
  have hc2 : s.contains '?' = false := by simpa using h2
  have ht2 : s.takeWhile (fun x => x ≠ '?') = s :=
    List.takeWhile_eq_self_iff.mpr (by
      intro x hx
      simp only [decide_eq_true_eq]
      intro hxe
      exact h2 (hxe ▸ hx))
  simp only [hc2, ht2, if_false, Bool.false_eq_true]
  rw [if_neg (by simpa using hne)]

/-! ## Claim C7 -/

/-- C7: with a basename `b` other than `/`, `matchRoutes` returns null
without attempting any branch match when the pathname does not start with
`b` case-insensitively or the character right after the prefix exists and is
not `/`; otherwise it behaves exactly as `matchRoutes` on the pathname with
`b` stripped and the default basename.  In particular
`matchRoutes(routes, "/app/home", "/app") = matchRoutes(routes, "/home")`
and `matchRoutes(routes, "/other", "/app")` is null, for every route list. -/
theorem matchRoutes_basename :
    (∀ (routes : List RouteObject) (p b : Str), b ≠ ['/'] →
      ((lowerStr b).isPrefixOf (lowerStr (orSlash (parsePath p).pathname)) = false ∨
        (∃ c, (((orSlash (parsePath p).pathname)).drop b.length).head? = some c ∧
          c ≠ '/')) →
      matchRoutes routes p b = .ok none) ∧
    (∀ (routes : List RouteObject) (p b s : Str), b ≠ ['/'] →
      stripBasename (orSlash (parsePath p).pathname) b = some s →
      matchRoutes routes p b = matchRoutes routes s ['/']) ∧
    (∀ routes, matchRoutes routes ("/app/home".toList) ("/app".toList) =
      matchRoutes routes ("/home".toList) ("/".toList)) ∧
    (∀ routes, matchRoutes routes ("/other".toList) ("/app".toList) = .ok none) := by
  have hstripnone : ∀ (pn b : Str), b ≠ ['/'] →
      ((lowerStr b).isPrefixOf (lowerStr pn) = false ∨
        (∃ c, (pn.drop b.length).head? = some c ∧ c ≠ '/')) →
      stripBasename pn b = none := by
    intro pn b hb hcond
    unfold stripBasename
    rw [if_neg hb]
    rcases hcond with hcond | ⟨c, hc, hcs⟩
    · rw [hcond]
      simp
    · split
      · rfl
      · rw [hc]
        simp [hcs]
  refine ⟨?_, ?_, ?_, ?_⟩
  · intro routes p b hb hcond
    simp only [matchRoutes]
    rw [hstripnone _ b hb hcond]
  · intro routes p b s hb hs
    have hpn := orSlash_props (parsePath p).pathname (fun q hq => parsePath_pathname_props p q hq)
    obtain ⟨hsne, hsub⟩ := stripBasename_some_props _ b s hb hs
    have h1 : '#' ∉ s := by
      intro hmem
      rcases hsub _ hmem with h | h
      · exact hpn.2.1 h
      · cases h
    have h2 : '?' ∉ s := by
      intro hmem
      rcases hsub _ hmem with h | h
      · exact hpn.2.2 h
      · cases h
    show matchRoutes routes p b = matchRoutes routes s ['/']
    simp only [matchRoutes]
    rw [hs, parsePath_clean s hsne h1 h2]
    show _ =
      match stripBasename (orSlash (some s)) ['/'] with
      | none => Except.ok none
      | some pathname => do
        let branches ← flattenRoutes routes [] [] []
        pure ((rankRouteBranches branches).findSome?
          (fun br => matchRouteBranch br routes pathname))
    have ho : orSlash (some s) = s := by
      simp only [orSlash]
      rw [if_neg (by simpa using hsne)]
    have hstrip : stripBasename (orSlash (some s)) ['/'] = some s := by
      unfold stripBasename
      rw [if_pos rfl, ho]
    rw [hstrip]
  · intro routes
    rfl
  · intro routes
    rfl

/-- Witness for C7 at concrete inputs. -/
theorem matchRoutes_basename_wit :
    matchRoutes [] ("/other".toList) ("/app".toList) = .ok none ∧
    matchRoutes [] ("/app/home".toList) ("/app".toList) =
      matchRoutes [] ("/home".toList) ("/".toList) :=
  ⟨matchRoutes_basename.1 [] _ _ (by decide) (Or.inl (by decide)),
   matchRoutes_basename.2.1 [] _ _ ("/home".toList) (by decide) (by decide)⟩

/-! ## Claim C2 -/

/-- C2 (amended): `matchRoutes` on `[{path:"/users/:id"}, {path:"/users/new"}]`
and pathname `/users/new` returns a match whose route is the static
`/users/new` route declared second, because the static branch outscores the
dynamic one and ranked branches are tried in descending-score order, first
full match winning.  The scores, however, are 24 and 17 (the code counts the
three `/`-split segments, including the leading empty one, into the base
score), not 20 and 13 as the claim asserts. -/
theorem matchRoutes_static_precedence :
    matchRoutes [routeUserId, routeUserNew] ("/users/new".toList) ("/".toList) =
      .ok (some [⟨[], "/users/new".toList, "/users/new".toList,
        some routeUserNew⟩]) ∧
    computeScore ("/users/new".toList) false = 24 ∧
    computeScore ("/users/:id".toList) false = 17 ∧
    (17 : Int) < 24 :=
  ⟨rfl, by decide, by decide, by decide⟩

/-- C2 counterexample: the branch scores the claim asserts are wrong — the
static branch scores 24, not 20, and the dynamic branch 17, not 13. -/
theorem matchRoutes_static_precedence_cex :
    computeScore ("/users/new".toList) false ≠ 20 ∧
    computeScore ("/users/:id".toList) false ≠ 13 := by
  decide

/-! ## Lemmas for `compilePath` on bare trailing stars -/

theorem dropTrailingSlashes_concat_slash (s : Str) :
    dropTrailingSlashes (s ++ ['/']) = dropTrailingSlashes s := by
  unfold dropTrailingSlashes
  rw [show (s ++ ['/']).reverse = '/' :: s.reverse by simp]
  rw [List.dropWhile_cons_of_pos (by simp)]

/-! ## Claim C8 -/

/-- C8: a pattern ending in `*` not preceded by `/` (and not the bare `*`)
compiles to exactly the same matcher and parameter-name list as the pattern
with `/` inserted before the final `*`, so `foo*` behaves as `foo/*`; the
match outcome (params, matched pathname, pathnameBase) on every pathname is
identical, the two spellings differing only in the non-fatal warning and the
`pattern` back-reference. -/
theorem compilePath_bare_star :
    ∀ (s : Str) (cs e : Bool), s ≠ [] → s.getLast? ≠ some '/' →
      compilePath (s ++ ['*']) cs e = compilePath (s ++ ['/', '*']) cs e ∧
      ∀ pn, (matchPath ⟨s ++ ['*'], cs, e⟩ pn).map pathMatchData =
        (matchPath ⟨s ++ ['/', '*'], cs, e⟩ pn).map pathMatchData := by
  intro s cs e hne hsl
  have h1 : (s ++ ['*']).getLast? = some '*' := List.getLast?_concat _
  have h2 : (s ++ ['/', '*']).getLast? = some '*' := by
    rw [show s ++ ['/', '*'] = (s ++ ['/']) ++ ['*'] by simp]
    exact List.getLast?_concat _
  have hbody : stripTrailingForBody (s ++ ['*']) =
      stripTrailingForBody (s ++ ['/', '*']) := by
    unfold stripTrailingForBody
    rw [if_pos h1, if_pos h2]
    rw [List.dropLast_concat]
    rw [show s ++ ['/', '*'] = (s ++ ['/']) ++ ['*'] by simp]
    rw [List.dropLast_concat, dropTrailingSlashes_concat_slash]
  have hne1 : ¬(s ++ ['*'] = ['*'] ∨ s ++ ['*'] = ['/', '*']) := by
    rintro (h | h)
    · have h' : s ++ ['*'] = [] ++ ['*'] := by simpa using h
      exact hne (List.append_cancel_right h')
    · have h' : s ++ ['*'] = ['/'] ++ ['*'] := by simpa using h
      have hs : s = ['/'] := List.append_cancel_right h'
      rw [hs] at hsl
      exact hsl rfl
  have hne2 : ¬(s ++ ['/', '*'] = ['*'] ∨ s ++ ['/', '*'] = ['/', '*']) := by
    rintro (h | h)
    · have := congrArg List.length h
      simp at this
    · have h' : s ++ ['/', '*'] = [] ++ ['/', '*'] := by simpa using h
      exact hne (List.append_cancel_right h')
  have hcomp : compilePath (s ++ ['*']) cs e = compilePath (s ++ ['/', '*']) cs e := by
    unfold compilePath
    rw [if_pos h1, if_pos h2, hbody]
    have hd1 : (decide (s ++ ['*'] = ['*']) || decide (s ++ ['*'] = ['/', '*'])) = false := by
      simp only [Bool.or_eq_false_iff, decide_eq_false_iff_not]
      exact ⟨fun h => hne1 (Or.inl h), fun h => hne1 (Or.inr h)⟩
    have hd2 : (decide (s ++ ['/', '*'] = ['*']) ||
        decide (s ++ ['/', '*'] = ['/', '*'])) = false := by
      simp only [Bool.or_eq_false_iff, decide_eq_false_iff_not]
      exact ⟨fun h => hne2 (Or.inl h), fun h => hne2 (Or.inr h)⟩
    simp only [hd1, hd2, if_false, Bool.false_eq_true]
  refine ⟨hcomp, ?_⟩
  intro pn
  simp only [matchPath]
  rw [hcomp]
  cases matchToks (compilePath (s ++ ['/', '*']) cs e).1.ignoreCase
      (compilePath (s ++ ['/', '*']) cs e).1.tail
      (compilePath (s ++ ['/', '*']) cs e).1.toks none pn with
  | none => rfl
  | some nc => simp [pathMatchData]

/-- Witness for C8 at concrete inputs. -/
theorem compilePath_bare_star_wit :
    compilePath ("foo".toList ++ ['*']) false true =
      compilePath ("foo".toList ++ ['/', '*']) false true ∧
    (matchPath ⟨"foo".toList ++ ['*'], false, true⟩ ("/foo/bar".toList)).map
        pathMatchData =
      (matchPath ⟨"foo".toList ++ ['/', '*'], false, true⟩
        ("/foo/bar".toList)).map pathMatchData := by
  have h := compilePath_bare_star ("foo".toList) false true (by decide) (by decide)
  exact ⟨h.1, h.2 _⟩

/-! ## Lemmas on joining and splitting path segments -/

theorem mem_joinWithChar {x c : Char} {l : List Str} :
    x ∈ joinWithChar c l → x = c ∨ ∃ s ∈ l, x ∈ s := by
  induction l with
  | nil => simp [joinWithChar]
  | cons a more ih =>
    cases more with
    | nil =>
      intro h
      right
      exact ⟨a, by simp, by simpa [joinWithChar] using h⟩
    | cons b rest =>
      intro h
      rw [show joinWithChar c (a :: b :: rest) = a ++ c :: joinWithChar c (b :: rest)
        from rfl] at h
      rcases List.mem_append.mp h with h | h
      · right
        exact ⟨a, by simp, h⟩
      · rcases List.mem_cons.mp h with h | h
        · exact Or.inl h
        · rcases ih h with h | ⟨s, hs, hx⟩
          · exact Or.inl h
          · right
            exact ⟨s, List.mem_cons_of_mem a hs, hx⟩

theorem splitOnChar_joinWithChar (c : Char) (l : List Str) (hl : l ≠ [])
    (h : ∀ s ∈ l, c ∉ s) : splitOnChar c (joinWithChar c l) = l := by
  induction l with
  | nil => cases hl rfl
  | cons a more ih =>
    cases more with
    | nil =>
      show splitOnChar c (joinWithChar c [a]) = [a]
      rw [show joinWithChar c [a] = a from rfl]
      exact splitOnChar_no_sep c a
        (fun x hx hc => (h a (by simp)) (hc ▸ hx))
    | cons b rest =>
      rw [show joinWithChar c (a :: b :: rest) = a ++ c :: joinWithChar c (b :: rest)
        from rfl]
      rw [splitOnChar_append_sep]
      rw [splitOnChar_no_sep c a (fun x hx hc => (h a (by simp)) (hc ▸ hx))]
      rw [ih (by simp) (fun s hs => h s (List.mem_cons_of_mem a hs))]
      rfl

theorem takeWhile_replicate_append_len (a : Str) (k : Nat) (rest : List Str)
    (hrest : rest.head? ≠ some a) :
    ((List.replicate k a ++ rest).takeWhile (· = a)).length = k := by
  induction k with
  | zero =>
    cases rest with
    | nil => simp
    | cons r rs =>
      have hra : ¬(r = a) := by
        intro h
        exact hrest (by simp [h])
      simp [List.takeWhile_cons, hra]
  | succ n ih =>
    simp [List.replicate_succ, List.takeWhile_cons, ih]
    intro hl ha
    exact hrest (by rw [List.head?_eq_getElem?, List.getElem?_eq_getElem hl, ha])

/-! ## Claim C9 -/

/-- C9: a target pathname made of `k ≥ 1` leading `..` segments followed by
further segments steps `k` levels up the `routePathnames` ancestor list (one
list level per `..`, not one URL segment): the remainder is resolved with
`resolvePath` against `routePathnames[length - 1 - k]`, or against `/` when
there are more `..` segments than ancestor levels; in particular
`resolveTo("../sibling", ["/a", "/a/b"], "/a/b/current")` has pathname
`/a/sibling`. -/
theorem resolveTo_dotdot :
    (∀ (k : Nat) (rest : List Str) (rps : List Str) (loc : Str),
      1 ≤ k → rest.head? ≠ some ['.', '.'] →
      (∀ seg ∈ rest, '/' ∉ seg ∧ '#' ∉ seg ∧ '?' ∉ seg) →
      resolveTo (joinWithChar '/' (List.replicate k ['.', '.'] ++ rest)) rps loc =
        fixupTrailingSlash (joinWithChar '/' (List.replicate k ['.', '.'] ++ rest))
          (resolvePath ⟨some (joinWithChar '/' rest), none, none⟩
            (if k + 1 ≤ rps.length then (rps[rps.length - 1 - k]?).getD ['/']
             else ['/']))) ∧
    resolveTo ("../sibling".toList) ["/a".toList, "/a/b".toList]
      ("/a/b/current".toList) = ⟨"/a/sibling".toList, [], []⟩ := by
  constructor
  · intro k rest rps loc hk hrh hwf
    obtain ⟨k', hk'⟩ : ∃ k', k = k' + 1 := ⟨k - 1, by omega⟩
    have hsegs_cons : List.replicate k ['.', '.'] ++ rest =
        ['.', '.'] :: (List.replicate k' ['.', '.'] ++ rest) := by
      rw [hk', List.replicate_succ]
      simp
    have hpt : ∃ t, joinWithChar '/' (List.replicate k ['.', '.'] ++ rest) =
        '.' :: '.' :: t := by
      rw [hsegs_cons]
      cases List.replicate k' ['.', '.'] ++ rest with
      | nil => exact ⟨[], rfl⟩
      | cons x xs => exact ⟨_, rfl⟩
    obtain ⟨t, hpt⟩ := hpt
    have hpne : joinWithChar '/' (List.replicate k ['.', '.'] ++ rest) ≠ [] := by
      rw [hpt]
      simp
    have hseg_mem : ∀ s ∈ List.replicate k ['.', '.'] ++ rest,
        '#' ∉ s ∧ '?' ∉ s ∧ '/' ∉ s := by
      intro s hs
      rcases List.mem_append.mp hs with h | h
      · have := List.eq_of_mem_replicate h
        subst this
        refine ⟨by simp, by simp, by simp⟩
      · exact ⟨(hwf s h).2.1, (hwf s h).2.2, (hwf s h).1⟩
    have hpnoh : '#' ∉ joinWithChar '/' (List.replicate k ['.', '.'] ++ rest) := by
      intro hm
      rcases mem_joinWithChar hm with h | ⟨s, hs, hx⟩
      · cases h
      · exact (hseg_mem s hs).1 hx
    have hpnoq : '?' ∉ joinWithChar '/' (List.replicate k ['.', '.'] ++ rest) := by
      intro hm
      rcases mem_joinWithChar hm with h | ⟨s, hs, hx⟩
      · cases h
      · exact (hseg_mem s hs).2.1 hx
    have hsplit : splitOnChar '/' (joinWithChar '/'
        (List.replicate k ['.', '.'] ++ rest)) =
        List.replicate k ['.', '.'] ++ rest :=
      splitOnChar_joinWithChar '/' _ (by rw [hsegs_cons]; simp)
        (fun s hs => (hseg_mem s hs).2.2)
    have hcount : countLeadingDotDot (List.replicate k ['.', '.'] ++ rest) = k :=
      takeWhile_replicate_append_len ['.', '.'] k rest hrh
    have hdrop : (List.replicate k ['.', '.'] ++ rest).drop k = rest := by
      have h := List.drop_left (List.replicate k (['.', '.'] : Str)) rest
      rwa [List.length_replicate] at h
    simp only [resolveTo]
    rw [parsePath_clean _ hpne hpnoh hpnoq]
    rw [if_neg (by simpa using hpne)]
    simp only
    rw [if_pos (by rw [hpt]; rfl)]
    rw [hsplit, hcount, hdrop]
    congr 1
    congr 1
    by_cases h : k + 1 ≤ rps.length
    · rw [if_pos (by push_cast; omega), if_pos h]
      congr 2
      omega
    · rw [if_neg (by push_cast; omega), if_neg h]
  · rfl

/-- Witness for C9 at concrete inputs. -/
theorem resolveTo_dotdot_wit :
    resolveTo (joinWithChar '/' (List.replicate 1 ['.', '.'] ++ ["sibling".toList]))
        ["/a".toList, "/a/b".toList] ("/a/b/current".toList) =
      fixupTrailingSlash
        (joinWithChar '/' (List.replicate 1 ['.', '.'] ++ ["sibling".toList]))
        (resolvePath ⟨some (joinWithChar '/' ["sibling".toList]), none, none⟩
          (if 1 + 1 ≤ (["/a".toList, "/a/b".toList] : List Str).length then
            ((["/a".toList, "/a/b".toList] : List Str)[
              (["/a".toList, "/a/b".toList] : List Str).length - 1 - 1]?).getD ['/']
           else ['/'])) :=
  resolveTo_dotdot.1 1 ["sibling".toList] ["/a".toList, "/a/b".toList]
    ("/a/b/current".toList) (by decide) (by decide) (by decide)

/-! ## Lemmas on `stripSlashSuffix` and `matchPath` invariants -/

theorem head?_dropWhile_ne (p : Char → Bool) (l : Str) {c : Char}
    (h : (l.dropWhile p).head? = some c) : p c = false := by
  induction l with
  | nil => simp at h
  | cons x xs ih =>
    by_cases hx : p x
    · rw [List.dropWhile_cons_of_pos hx] at h
      exact ih h
    · rw [List.dropWhile_cons_of_neg hx] at h
      simp only [List.head?_cons, Option.some_inj] at h
      subst h
      simpa using hx

theorem stripSlashSuffix_decomp (s : Str) :
    s = (s.reverse.dropWhile (· = '/')).reverse ++
      List.replicate (s.reverse.takeWhile (· = '/')).length '/' := by
  have h1 : s.reverse.takeWhile (· = '/') ++ s.reverse.dropWhile (· = '/') =
      s.reverse := List.takeWhile_append_dropWhile _ _
  have hall : ∀ x ∈ s.reverse.takeWhile (· = '/'), x = '/' := by
    intro x hx
    simpa using List.mem_takeWhile_imp hx
  have hrep : s.reverse.takeWhile (· = '/') =
      List.replicate (s.reverse.takeWhile (· = '/')).length '/' :=
    List.eq_replicate_of_mem hall
  calc s = s.reverse.reverse := (List.reverse_reverse s).symm
    _ = (s.reverse.takeWhile (· = '/') ++ s.reverse.dropWhile (· = '/')).reverse := by
        rw [h1]
    _ = (s.reverse.dropWhile (· = '/')).reverse ++
        (s.reverse.takeWhile (· = '/')).reverse := by rw [List.reverse_append]
    _ = _ := by
      conv_lhs => rw [hrep]
      rw [List.reverse_replicate]

theorem stripSlashSuffix_pref (s : Str) : ∃ u, stripSlashSuffix s ++ u = s := by
  unfold stripSlashSuffix
  have hdec := stripSlashSuffix_decomp s
  cases hh : (s.reverse.dropWhile (· = '/')).head? with
  | some c =>
    simp only [hh]
    by_cases h1 : (1 ≤ (s.reverse.takeWhile (· = '/')).length && !lineTerm c) = true
    · rw [if_pos h1]
      exact ⟨List.replicate (s.reverse.takeWhile (· = '/')).length '/', hdec.symm⟩
    · rw [if_neg h1]
      by_cases h2 : 2 ≤ (s.reverse.takeWhile (· = '/')).length
      · rw [if_pos h2]
        refine ⟨List.replicate ((s.reverse.takeWhile (· = '/')).length - 1) '/', ?_⟩
        rw [List.append_assoc, List.singleton_append]
        rw [show ('/' :: List.replicate ((s.reverse.takeWhile (· = '/')).length - 1) '/'
            : Str) = List.replicate (s.reverse.takeWhile (· = '/')).length '/' by
          rw [← List.replicate_succ]
          congr 1
          omega]
        exact hdec.symm
      · rw [if_neg h2]
        exact ⟨[], by simp⟩
  | none =>
    simp only [hh]
    by_cases h2 : 2 ≤ (s.reverse.takeWhile (· = '/')).length
    · rw [if_pos h2]
      refine ⟨List.replicate ((s.reverse.takeWhile (· = '/')).length - 1) '/', ?_⟩
      have hstem : s.reverse.dropWhile (· = '/') = [] := by
        cases hcase : s.reverse.dropWhile (· = '/') with
        | nil => rfl
        | cons a l =>
          rw [hcase] at hh
          cases hh
      rw [hstem] at hdec
      simp only [List.reverse_nil, List.nil_append] at hdec
      rw [List.singleton_append]
      rw [show ('/' :: List.replicate ((s.reverse.takeWhile (· = '/')).length - 1) '/'
          : Str) = List.replicate (s.reverse.takeWhile (· = '/')).length '/' by
        rw [← List.replicate_succ]
        congr 1
        omega]
      exact hdec.symm
    · rw [if_neg h2]
      exact ⟨[], by simp⟩

theorem stripSlashSuffix_last (s : Str) (h : ∀ c ∈ s, lineTerm c = false) :
    stripSlashSuffix s = ['/'] ∨ (stripSlashSuffix s).getLast? ≠ some '/' := by
  unfold stripSlashSuffix
  have hmem : ∀ c ∈ s.reverse.dropWhile (· = '/'), c ∈ s := by
    intro c hc
    have := (List.dropWhile_sublist (· = '/')).subset hc
    simpa using this
  cases hh : (s.reverse.dropWhile (· = '/')).head? with
  | some c =>
    have hcs : (c = '/') = False := by
      simpa using head?_dropWhile_ne _ _ hh
    have hcmem : c ∈ s := hmem c (List.mem_of_mem_head? hh)
    have hlt : lineTerm c = false := h c hcmem
    simp only [hh]
    by_cases h1 : (1 ≤ (s.reverse.takeWhile (· = '/')).length && !lineTerm c) = true
    · rw [if_pos h1]
      right
      rw [show (s.reverse.dropWhile (· = '/')).reverse.getLast? =
          (s.reverse.dropWhile (· = '/')).head? from List.getLast?_reverse _]
      rw [hh]
      intro hcon
      simp only [Option.some_inj] at hcon
      exact hcs.mp hcon
    · rw [if_neg h1]
      have hk : (s.reverse.takeWhile (· = '/')).length = 0 := by
        by_cases hk1 : 1 ≤ (s.reverse.takeWhile (· = '/')).length
        · exfalso
          apply h1
          simp [hk1, hlt]
        · omega
      rw [if_neg (by omega)]
      right
      have hdec := stripSlashSuffix_decomp s
      rw [hk] at hdec
      simp only [List.replicate_zero, List.append_nil] at hdec
      rw [hdec]
      rw [show (s.reverse.dropWhile (· = '/')).reverse.getLast? =
          (s.reverse.dropWhile (· = '/')).head? from List.getLast?_reverse _]
      rw [hh]
      intro hcon
      simp only [Option.some_inj] at hcon
      exact hcs.mp hcon
  | none =>
    have hstem : s.reverse.dropWhile (· = '/') = [] := by
      cases hcase : s.reverse.dropWhile (· = '/') with
      | nil => rfl
      | cons a l =>
        rw [hcase] at hh
        cases hh
    have hdec := stripSlashSuffix_decomp s
    rw [hstem] at hdec
    simp only [List.reverse_nil, List.nil_append] at hdec
    simp only [hh]
    by_cases h2 : 2 ≤ (s.reverse.takeWhile (· = '/')).length
    · rw [if_pos h2]
      exact Or.inl rfl
    · rw [if_neg h2]
      rcases (by omega : (s.reverse.takeWhile (· = '/')).length = 0 ∨
          (s.reverse.takeWhile (· = '/')).length = 1) with hk | hk
      · rw [hk] at hdec
        right
        rw [hdec]
        simp
      · rw [hk] at hdec
        left
        rw [hdec]
        rfl

theorem paramsFold_base_shape (matched : Str) (entries : List (Str × Option Str)) :
    ∀ ps base, (paramsFold matched entries (ps, base)).2 = base ∨
      ∃ j, (paramsFold matched entries (ps, base)).2 =
        stripSlashSuffix (matched.take j) := by
  induction entries with
  | nil =>
    intro ps base
    left
    rfl
  | cons e rest ih =>
    intro ps base
    obtain ⟨name, cap⟩ := e
    rw [show paramsFold matched ((name, cap) :: rest) (ps, base) =
        paramsFold matched rest
          (setParam ps name (safelyDecodeURIComponent (cap.getD [])),
           if name = ['*'] then
             stripSlashSuffix (matched.take (matched.length - (cap.getD []).length))
           else base) from rfl]
    by_cases hn : name = ['*']
    · rw [if_pos hn]
      rcases ih (setParam ps name (safelyDecodeURIComponent (cap.getD [])))
          (stripSlashSuffix (matched.take (matched.length - (cap.getD []).length)))
        with h | h
      · exact Or.inr ⟨matched.length - (cap.getD []).length, h⟩
      · exact Or.inr h
    · rw [if_neg hn]
      exact ih _ _

/-! ## Claim C10 -/

/-- C10 (amended): whenever `matchPath` returns a match, the returned
`pathname` is a prefix of the input pathname (the matcher is anchored) and
`pathnameBase` is a prefix of the returned `pathname`; provided the input
pathname contains no line-terminator characters, `pathnameBase` is either
exactly `/` or does not end in `/`.  Without that proviso the last clause
fails: the `(.)\/+$` trimming regex cannot match a line terminator before
the trailing slash run (see the counterexample). -/
theorem matchPath_base_invariants :
    ∀ (pat : PathPattern) (pn : Str) (m : PathMatch), matchPath pat pn = some m →
      (∃ u, m.pathname ++ u = pn) ∧
      (∃ u, m.pathnameBase ++ u = m.pathname) ∧
      ((∀ c ∈ pn, lineTerm c = false) →
        (m.pathnameBase = ['/'] ∨ m.pathnameBase.getLast? ≠ some '/')) := by
  intro pat pn m h
  simp only [matchPath] at h
  split at h
  · cases h
  · next nc heq =>
    simp only [Option.some_inj] at h
    subst h
    have hshape : ∃ x w, (paramsFold (pn.take nc.1)
        (zipCaps (compilePath pat.path pat.caseSensitive pat.matchEnd).2 nc.2)
        ([], stripSlashSuffix (pn.take nc.1))).2 = stripSlashSuffix x ∧
        x ++ w = pn.take nc.1 := by
      rcases paramsFold_base_shape (pn.take nc.1)
          (zipCaps (compilePath pat.path pat.caseSensitive pat.matchEnd).2 nc.2)
          [] (stripSlashSuffix (pn.take nc.1)) with h | ⟨j, h⟩
      · exact ⟨pn.take nc.1, [], h, by simp⟩
      · exact ⟨(pn.take nc.1).take j, (pn.take nc.1).drop j, h,
          List.take_append_drop _ _⟩
    obtain ⟨x, w, hB, hxw⟩ := hshape
    refine ⟨⟨pn.drop nc.1, List.take_append_drop _ _⟩, ?_, ?_⟩
    · obtain ⟨u0, hu0⟩ := stripSlashSuffix_pref x
      refine ⟨u0 ++ w, ?_⟩
      show (paramsFold _ _ _).2 ++ (u0 ++ w) = pn.take nc.1
      rw [hB, ← List.append_assoc, hu0, hxw]
    · intro hlines
      show (paramsFold _ _ _).2 = ['/'] ∨ (paramsFold _ _ _).2.getLast? ≠ some '/'
      rw [hB]
      refine stripSlashSuffix_last x ?_
      intro c hc
      refine hlines c ?_
      have h1 : c ∈ pn.take nc.1 := by
        rw [← hxw]
        exact List.mem_append_left w hc
      exact List.take_subset _ _ h1

/-- Witness for C10 at concrete inputs. -/
theorem matchPath_base_invariants_wit :
    (∃ u, ("/users///".toList : Str) ++ u = "/users///".toList) ∧
    (∃ u, ("/users".toList : Str) ++ u = "/users///".toList) ∧
    (("/users".toList : Str) = ['/'] ∨
      ("/users".toList : Str).getLast? ≠ some '/') := by
  have h := matchPath_base_invariants ⟨"/users".toList, false, true⟩
    ("/users///".toList)
    ⟨[], "/users///".toList, "/users".toList, ⟨"/users".toList, false, true⟩⟩ rfl
  exact ⟨h.1, h.2.1, h.2.2 (by decide)⟩

/-- C10 counterexample: on the pattern `/a\n` and pathname `/a\n//` the match
succeeds with `pathnameBase = "/a\n/"`, which ends in `/` yet is not `/`:
the dot in the trimming regex `(.)\/+$` cannot match the line terminator
before the trailing slash run, so the earliest match keeps one slash. -/
theorem matchPath_base_newline_cex :
    (matchPath ⟨('/' :: 'a' :: '\n' :: []), false, true⟩
        ('/' :: 'a' :: '\n' :: '/' :: '/' :: [])).map (·.pathnameBase) =
      some ('/' :: 'a' :: '\n' :: '/' :: []) ∧
    ('/' :: 'a' :: '\n' :: '/' :: [] : Str).getLast? = some '/' ∧
    ('/' :: 'a' :: '\n' :: '/' :: [] : Str) ≠ ['/'] := by
  refine ⟨rfl, rfl, by simp⟩

/-! ## Lemmas for the round-trip claim: fuel adequacy -/

theorem genReplaceParamsF_fuel (params : Str → Option Str) (n : Nat) :
    ∀ s : Str, s.length ≤ n → ∀ f, s.length < f →
      genReplaceParamsF params f s = genReplaceParamsF params (s.length + 1) s := by
  induction n with
  | zero =>
    intro s hs f hf
    have hnil : s = [] := List.length_eq_zero.mp (by omega)
    subst hnil
    obtain ⟨k, rfl⟩ : ∃ k, f = k + 1 := ⟨f - 1, by omega⟩
    rfl
  | succ n ih =>
    intro s hs f hf
    obtain ⟨k, rfl⟩ : ∃ k, f = k + 1 := ⟨f - 1, by omega⟩
    cases s with
    | nil => rfl
    | cons c rest =>
      simp only [List.length_cons] at hs hf ⊢
      by_cases hc : c = ':'
      · subst hc
        simp only [genReplaceParamsF]
        by_cases hw : (rest.takeWhile isWordChar).isEmpty
        · rw [if_pos hw, if_pos hw]
          rw [ih rest (by omega) k (by omega)]
        · rw [if_neg hw, if_neg hw]
          have hdl := List.length_drop (rest.takeWhile isWordChar).length rest
          cases params (rest.takeWhile isWordChar) with
          | none => rfl
          | some v =>
            simp only
            rw [ih _ (by omega) k (by omega),
              ih _ (by omega) (rest.length + 1) (by omega)]
      · simp only [genReplaceParamsF, hc]
        rw [ih rest (by omega) k (by omega)]

theorem scanTokensF_fuel (n : Nat) :
    ∀ s : Str, s.length ≤ n → ∀ f, s.length < f →
      scanTokensF f s = scanTokensF (s.length + 1) s := by
  induction n with
  | zero =>
    intro s hs f hf
    have hnil : s = [] := List.length_eq_zero.mp (by omega)
    subst hnil
    obtain ⟨k, rfl⟩ : ∃ k, f = k + 1 := ⟨f - 1, by omega⟩
    rfl
  | succ n ih =>
    intro s hs f hf
    obtain ⟨k, rfl⟩ : ∃ k, f = k + 1 := ⟨f - 1, by omega⟩
    cases s with
    | nil => rfl
    | cons c rest =>
      simp only [List.length_cons] at hs hf ⊢
      by_cases hc : c = ':'
      · subst hc
        simp only [scanTokensF]
        by_cases hw : (rest.takeWhile isWordChar).isEmpty
        · rw [if_pos hw, if_pos hw]
          rw [ih rest (by omega) k (by omega)]
        · rw [if_neg hw, if_neg hw]
          have hdl := List.length_drop (rest.takeWhile isWordChar).length rest
          rw [ih _ (by omega) k (by omega),
            ih _ (by omega) (rest.length + 1) (by omega)]
      · simp only [scanTokensF, hc]
        rw [ih rest (by omega) k (by omega)]

/-! ## Step equations for the fueled scanners -/

theorem scanTokens_cons_ne (c : Char) (rest : Str) (hc : c ≠ ':') :
    scanTokens (c :: rest) = (.lit c :: (scanTokens rest).1, (scanTokens rest).2) := by
  show scanTokensF ((c :: rest).length + 1) (c :: rest) = _
  simp only [List.length_cons, scanTokensF, hc]
  rfl

theorem scanTokens_colon_word (rest : Str)
    (hw : ¬(rest.takeWhile isWordChar).isEmpty = true) :
    scanTokens (':' :: rest) =
      (.prm :: (scanTokens (rest.drop (rest.takeWhile isWordChar).length)).1,
       rest.takeWhile isWordChar ::
         (scanTokens (rest.drop (rest.takeWhile isWordChar).length)).2) := by
  show scanTokensF ((':' :: rest).length + 1) (':' :: rest) = _
  simp only [List.length_cons, scanTokensF]
  rw [if_neg hw]
  have hdl := List.length_drop (rest.takeWhile isWordChar).length rest
  rw [scanTokensF_fuel rest.length _ (by omega) (rest.length + 1) (by omega)]
  rfl

theorem genF_cons_ne (params : Str → Option Str) (c : Char) (rest : Str)
    (hc : c ≠ ':') :
    genReplaceParamsF params ((c :: rest).length + 1) (c :: rest) =
      (genReplaceParamsF params (rest.length + 1) rest).map (c :: ·) := by
  simp only [List.length_cons, genReplaceParamsF, hc]

theorem genF_colon_word (params : Str → Option Str) (rest : Str) (v : Str)
    (hw : ¬(rest.takeWhile isWordChar).isEmpty = true)
    (hp : params (rest.takeWhile isWordChar) = some v) :
    genReplaceParamsF params ((':' :: rest).length + 1) (':' :: rest) =
      (genReplaceParamsF params
        ((rest.drop (rest.takeWhile isWordChar).length).length + 1)
        (rest.drop (rest.takeWhile isWordChar).length)).map (v ++ ·) := by
  simp only [List.length_cons, genReplaceParamsF]
  rw [if_neg hw, hp]
  have hdl := List.length_drop (rest.takeWhile isWordChar).length rest
  rw [genReplaceParamsF_fuel params rest.length _ (by omega) (rest.length + 1)
    (by omega)]

/-! ## Word-run extraction -/

theorem takeWhile_word_append (nm t : Str) (hn : ∀ x ∈ nm, isWordChar x = true)
    (ht : ∀ c, t.head? = some c → isWordChar c = false) :
    (nm ++ t).takeWhile isWordChar = nm := by
  induction nm with
  | nil =>
    cases t with
    | nil => rfl
    | cons c t' =>
      simp only [List.nil_append, List.takeWhile_cons]
      rw [ht c rfl]
      rfl
  | cons x nm' ih =>
    simp only [List.cons_append, List.takeWhile_cons]
    rw [hn x (by simp)]
    rw [ih (fun y hy => hn y (by simp [hy]))]
    rfl

theorem joinWithChar_cons (c : Char) (a : Str) (l : List Str) :
    joinWithChar c (a :: l) =
      a ++ (match l with | [] => [] | _ :: _ => c :: joinWithChar c l) := by
  cases l with
  | nil => simp [joinWithChar]
  | cons b r => rfl

/-! ## The generation side of the round trip -/

theorem genF_append_lit (params : Str → Option Str) (s t : Str)
    (hs : ∀ x ∈ s, x ≠ ':') :
    genReplaceParamsF params ((s ++ t).length + 1) (s ++ t) =
      (genReplaceParamsF params (t.length + 1) t).map (s ++ ·) := by
  induction s with
  | nil =>
    simp only [List.nil_append]
    cases h : genReplaceParamsF params (t.length + 1) t <;> rfl
  | cons c s' ih =>
    rw [show (c :: s') ++ t = c :: (s' ++ t) from rfl]
    rw [genF_cons_ne params c (s' ++ t) (hs c (by simp))]
    rw [ih (fun x hx => hs x (by simp [hx]))]
    cases h : genReplaceParamsF params (t.length + 1) t <;> rfl

theorem genRun_render (params : Str → Option Str) (segs : List GenSeg)
    (hwf : ∀ sg ∈ segs, segOK sg = true)
    (hcov : ∀ n ∈ namesOf segs, ∃ v, params n = some v ∧ valOK v = true) :
    genReplaceParamsF params ((joinWithChar '/' (segs.map renderSeg)).length + 1)
      (joinWithChar '/' (segs.map renderSeg)) = .ok (valsOf params segs) := by
  induction segs with
  | nil => rfl
  | cons sg more ih =>
    have ihm := ih (fun x hx => hwf x (by simp [hx]))
      (fun n hn => hcov n (by
        simp only [namesOf, List.filterMap_cons] at hn ⊢
        cases sg <;> simp at hn ⊢ <;> tauto))
    have htail : genReplaceParamsF params
        ((match more.map renderSeg with
          | [] => []
          | _ :: _ => '/' :: joinWithChar '/' (more.map renderSeg) : Str).length + 1)
        (match more.map renderSeg with
          | [] => []
          | _ :: _ => '/' :: joinWithChar '/' (more.map renderSeg)) =
        .ok (match more.map (segVal params) with
          | [] => []
          | _ :: _ => '/' :: joinWithChar '/' (more.map (segVal params))) := by
      cases more with
      | nil => rfl
      | cons m ms =>
        simp only [List.map_cons]
        rw [genF_cons_ne params '/' _ (by decide)]
        rw [show joinWithChar '/' (renderSeg m :: ms.map renderSeg) =
          joinWithChar '/' ((m :: ms).map renderSeg) from rfl]
        rw [ihm]
        rfl
    cases sg with
    | lit s =>
      have hlit : litOK s = true := by simpa [segOK] using hwf (.lit s) (by simp)
      have hsc : ∀ x ∈ s, x ≠ ':' := by
        have hl := (by simpa [litOK] using hlit :
          ¬s = [] ∧ ∀ c ∈ s, (¬c = '/' ∧ ¬c = ':') ∧ ¬c = '*')
        intro x hx
        exact (hl.2 x hx).1.2
      rw [List.map_cons, show renderSeg (.lit s) = s from rfl, joinWithChar_cons]
      rw [genF_append_lit params s _ hsc, htail]
      unfold valsOf
      rw [List.map_cons, show segVal params (.lit s) = s from rfl, joinWithChar_cons]
      rfl
    | pvar n =>
      have hname : nameOK n = true := by simpa [segOK] using hwf (.pvar n) (by simp)
      have hnprop := (by simpa [nameOK] using hname :
        ¬n = [] ∧ ∀ c ∈ n, isWordChar c = true)
      obtain ⟨v, hp, hv⟩ := hcov n (by simp [namesOf])
      rw [List.map_cons, show renderSeg (.pvar n) = ':' :: n from rfl, joinWithChar_cons]
      rw [show (':' :: n) ++ (match more.map renderSeg with
        | [] => ([] : Str)
        | _ :: _ => '/' :: joinWithChar '/' (more.map renderSeg)) =
        ':' :: (n ++ (match more.map renderSeg with
        | [] => ([] : Str)
        | _ :: _ => '/' :: joinWithChar '/' (more.map renderSeg))) from rfl]
      have htw : (n ++ (match more.map renderSeg with
          | [] => ([] : Str)
          | _ :: _ => '/' :: joinWithChar '/' (more.map renderSeg))).takeWhile
            isWordChar = n := by
        refine takeWhile_word_append n _ hnprop.2 ?_
        cases more with
        | nil => intro c hc; cases hc
        | cons m ms =>
          intro c hc
          simp only [List.map_cons, List.head?_cons, Option.some_inj] at hc
          rw [← hc]
          decide
      rw [genF_colon_word params _ v
        (by rw [htw]; simpa using hnprop.1)
        (by rw [htw]; exact hp)]
      rw [htw, List.drop_left, htail]
      unfold valsOf
      rw [List.map_cons,
        show segVal params (.pvar n) = (params n).getD [] from rfl, hp,
        joinWithChar_cons]
      rfl

/-! ## Character sets of rendered patterns and generated pathnames -/

theorem litOK_props (s : Str) (h : litOK s = true) :
    s ≠ [] ∧ ∀ c ∈ s, c ≠ '/' ∧ c ≠ ':' ∧ c ≠ '*' := by
  have hl := (by simpa [litOK] using h :
    ¬s = [] ∧ ∀ c ∈ s, (¬c = '/' ∧ ¬c = ':') ∧ ¬c = '*')
  exact ⟨hl.1, fun c hc => ⟨(hl.2 c hc).1.1, (hl.2 c hc).1.2, (hl.2 c hc).2⟩⟩

theorem nameOK_props (n : Str) (h : nameOK n = true) :
    n ≠ [] ∧ ∀ c ∈ n, isWordChar c = true := by
  simpa [nameOK] using h

theorem valOK_props (v : Str) (h : valOK v = true) :
    v ≠ [] ∧ ∀ c ∈ v, c ≠ '/' ∧ c ≠ '%' ∧ c ≠ '*' := by
  have hl := (by simpa [valOK] using h :
    ¬v = [] ∧ ∀ c ∈ v, (¬c = '/' ∧ ¬c = '%') ∧ ¬c = '*')
  exact ⟨hl.1, fun c hc => ⟨(hl.2 c hc).1.1, (hl.2 c hc).1.2, (hl.2 c hc).2⟩⟩

theorem pvar_mem_namesOf {n : Str} {segs : List GenSeg} (h : GenSeg.pvar n ∈ segs) :
    n ∈ namesOf segs := by
  simp only [namesOf, List.mem_filterMap]
  exact ⟨.pvar n, h, rfl⟩

theorem renderSeg_ne_nil (sg : GenSeg) (h : segOK sg = true) : renderSeg sg ≠ [] := by
  cases sg with
  | lit s => simpa [renderSeg] using (litOK_props s (by simpa [segOK] using h)).1
  | pvar n => simp [renderSeg]

theorem render_join_ne_nil (segs : List GenSeg) (hne : segs ≠ [])
    (hwf : ∀ sg ∈ segs, segOK sg = true) :
    joinWithChar '/' (segs.map renderSeg) ≠ [] := by
  cases segs with
  | nil => cases hne rfl
  | cons sg more =>
    rw [List.map_cons, joinWithChar_cons]
    intro h
    rcases List.append_eq_nil.mp h with ⟨h1, _⟩
    exact renderSeg_ne_nil sg (hwf sg (by simp)) h1

theorem render_getLast (segs : List GenSeg) (hne : segs ≠ [])
    (hwf : ∀ sg ∈ segs, segOK sg = true) :
    ∃ ch, (joinWithChar '/' (segs.map renderSeg)).getLast? = some ch ∧ ch ≠ '/' := by
  induction segs with
  | nil => cases hne rfl
  | cons sg more ih =>
    cases more with
    | nil =>
      rw [show joinWithChar '/' ([sg].map renderSeg) = renderSeg sg from rfl]
      cases sg with
      | lit s =>
        obtain ⟨hs, hchars⟩ := litOK_props s (by simpa [segOK] using hwf (.lit s) (by simp))
        obtain ⟨c, hc⟩ := Option.isSome_iff_exists.mp (List.getLast?_isSome.mpr hs)
        exact ⟨c, by simpa [renderSeg] using hc,
          (hchars c (List.mem_of_mem_getLast? hc)).1⟩
      | pvar n =>
        obtain ⟨hn, hchars⟩ := nameOK_props n
          (by simpa [segOK] using hwf (.pvar n) (by simp))
        obtain ⟨c, hc⟩ := Option.isSome_iff_exists.mp (List.getLast?_isSome.mpr hn)
        refine ⟨c, ?_, ?_⟩
        · rw [show renderSeg (.pvar n) = [':'] ++ n from rfl]
          rw [List.getLast?_append_of_ne_nil [':'] hn]
          exact hc
        · intro hcon
          have := hchars c (List.mem_of_mem_getLast? hc)
          rw [hcon] at this
          simp [isWordChar] at this
    | cons m ms =>
      have hJ : joinWithChar '/' ((m :: ms).map renderSeg) ≠ [] :=
        render_join_ne_nil (m :: ms) (by simp) (fun x hx => hwf x (by simp [hx]))
      obtain ⟨c, hc, hcs⟩ := ih (by simp) (fun x hx => hwf x (by simp [hx]))
      refine ⟨c, ?_, hcs⟩
      rw [show joinWithChar '/' ((sg :: m :: ms).map renderSeg) =
        renderSeg sg ++ ('/' :: joinWithChar '/' ((m :: ms).map renderSeg)) from rfl]
      rw [List.getLast?_append_of_ne_nil (renderSeg sg) (by simp)]
      rw [show ('/' :: joinWithChar '/' ((m :: ms).map renderSeg) : Str) =
        ['/'] ++ joinWithChar '/' ((m :: ms).map renderSeg) from rfl]
      rw [List.getLast?_append_of_ne_nil ['/'] hJ]
      exact hc

theorem render_head (sg : GenSeg) (more : List GenSeg)
    (hwf : ∀ x ∈ sg :: more, segOK x = true) :
    ∃ c t, joinWithChar '/' ((sg :: more).map renderSeg) = c :: t ∧ c ≠ '/' := by
  rw [List.map_cons, joinWithChar_cons]
  cases sg with
  | lit s =>
    obtain ⟨hs, hchars⟩ := litOK_props s (by simpa [segOK] using hwf (.lit s) (by simp))
    obtain ⟨c, s', hcs⟩ := List.exists_cons_of_ne_nil hs
    refine ⟨c, s' ++ (match more.map renderSeg with
      | [] => ([] : Str)
      | _ :: _ => '/' :: joinWithChar '/' (more.map renderSeg)), ?_, ?_⟩
    · rw [show renderSeg (.lit s) = s from rfl, hcs]
      rfl
    · exact (hchars c (by rw [hcs]; simp)).1
  | pvar n =>
    exact ⟨':', _, rfl, by decide⟩

theorem mem_render (segs : List GenSeg) {x : Char}
    (h : x ∈ joinWithChar '/' (segs.map renderSeg)) :
    x = '/' ∨ ∃ sg ∈ segs, x ∈ renderSeg sg := by
  rcases mem_joinWithChar h with h | ⟨s, hs, hx⟩
  · exact Or.inl h
  · rcases List.mem_map.mp hs with ⟨sg, hsg, rfl⟩
    exact Or.inr ⟨sg, hsg, hx⟩

theorem star_not_mem_render (segs : List GenSeg)
    (hwf : ∀ sg ∈ segs, segOK sg = true) :
    '*' ∉ renderPattern segs := by
  intro hmem
  unfold renderPattern at hmem
  rcases List.mem_cons.mp hmem with h | h
  · cases h
  · rcases mem_render segs h with h | ⟨sg, hsg, hx⟩
    · cases h
    · cases sg with
      | lit s =>
        exact ((litOK_props s (by simpa [segOK] using hwf _ hsg)).2 '*'
          (by simpa [renderSeg] using hx)).2.2 rfl
      | pvar n =>
        have hx' : '*' ∈ n := by simpa [renderSeg] using hx
        have := (nameOK_props n (by simpa [segOK] using hwf _ hsg)).2 '*' hx'
        simp [isWordChar] at this

/-! ## The compilation side of the round trip -/

theorem scanTokens_append_lit (s t : Str) (hs : ∀ x ∈ s, x ≠ ':') :
    scanTokens (s ++ t) = (s.map .lit ++ (scanTokens t).1, (scanTokens t).2) := by
  induction s with
  | nil => simp
  | cons c s' ih =>
    rw [show (c :: s') ++ t = c :: (s' ++ t) from rfl]
    rw [scanTokens_cons_ne c (s' ++ t) (hs c (by simp))]
    rw [ih (fun x hx => hs x (by simp [hx]))]
    simp

theorem scanTokens_render (segs : List GenSeg)
    (hwf : ∀ sg ∈ segs, segOK sg = true) :
    scanTokens (joinWithChar '/' (segs.map renderSeg)) =
      (toksOf segs, namesOf segs) := by
  induction segs with
  | nil => rfl
  | cons sg more ih =>
    have ihm := ih (fun x hx => hwf x (by simp [hx]))
    have htail : scanTokens (match more.map renderSeg with
        | [] => ([] : Str)
        | _ :: _ => '/' :: joinWithChar '/' (more.map renderSeg)) =
        ((match more with
          | [] => ([] : List PTok)
          | _ :: _ => .lit '/' :: toksOf more), namesOf more) := by
      cases more with
      | nil => rfl
      | cons m ms =>
        simp only [List.map_cons]
        rw [scanTokens_cons_ne '/' _ (by decide)]
        rw [show joinWithChar '/' (renderSeg m :: ms.map renderSeg) =
          joinWithChar '/' ((m :: ms).map renderSeg) from rfl]
        rw [ihm]
    cases sg with
    | lit s =>
      obtain ⟨hs, hchars⟩ := litOK_props s (by simpa [segOK] using hwf (.lit s) (by simp))
      rw [List.map_cons, show renderSeg (.lit s) = s from rfl, joinWithChar_cons]
      rw [scanTokens_append_lit s _ (fun x hx => (hchars x hx).2.1)]
      rw [htail]
      cases more <;> simp [toksOf, segToks, namesOf]
    | pvar n =>
      obtain ⟨hn, hchars⟩ := nameOK_props n
        (by simpa [segOK] using hwf (.pvar n) (by simp))
      rw [List.map_cons, show renderSeg (.pvar n) = ':' :: n from rfl, joinWithChar_cons]
      rw [show (':' :: n) ++ (match more.map renderSeg with
        | [] => ([] : Str)
        | _ :: _ => '/' :: joinWithChar '/' (more.map renderSeg)) =
        ':' :: (n ++ (match more.map renderSeg with
        | [] => ([] : Str)
        | _ :: _ => '/' :: joinWithChar '/' (more.map renderSeg))) from rfl]
      have htw : (n ++ (match more.map renderSeg with
          | [] => ([] : Str)
          | _ :: _ => '/' :: joinWithChar '/' (more.map renderSeg))).takeWhile
            isWordChar = n := by
        refine takeWhile_word_append n _ hchars ?_
        cases more with
        | nil => intro c hc; cases hc
        | cons m ms =>
          intro c hc
          simp only [List.map_cons, List.head?_cons, Option.some_inj] at hc
          rw [← hc]
          decide
      rw [scanTokens_colon_word _ (by rw [htw]; simpa using hn)]
      rw [htw, List.drop_left, htail]
      cases more <;> simp [toksOf, segToks, namesOf]

theorem render_body (segs : List GenSeg) (hwf : ∀ sg ∈ segs, segOK sg = true) :
    ('/' :: (stripTrailingForBody (renderPattern segs)).dropWhile (· = '/') : Str) =
      renderPattern segs := by
  cases segs with
  | nil => rfl
  | cons sg more =>
    obtain ⟨c, t, hct, hcs⟩ := render_head sg more hwf
    have hJne := render_join_ne_nil (sg :: more) (by simp) hwf
    obtain ⟨ch, hch, hchs⟩ := render_getLast (sg :: more) (by simp) hwf
    have hlast : (renderPattern (sg :: more)).getLast? = some ch := by
      rw [show renderPattern (sg :: more) =
        ['/'] ++ joinWithChar '/' ((sg :: more).map renderSeg) from rfl]
      rw [List.getLast?_append_of_ne_nil ['/'] hJne]
      exact hch
    have hstrip : stripTrailingForBody (renderPattern (sg :: more)) =
        renderPattern (sg :: more) := by
      unfold stripTrailingForBody
      have hne : ¬ (renderPattern (sg :: more)).getLast? = some '*' := by
        intro h
        exact star_not_mem_render (sg :: more) hwf
          (List.mem_of_mem_getLast? (Option.mem_def.mpr h))
      rw [if_neg hne]
      unfold dropTrailingSlashes
      have hrev : (renderPattern (sg :: more)).reverse.dropWhile (· = '/') =
          (renderPattern (sg :: more)).reverse := by
        cases hrc : (renderPattern (sg :: more)).reverse with
        | nil => rfl
        | cons rc rr =>
          rw [List.dropWhile_cons_of_neg]
          simp only [decide_eq_true_eq]
          intro hcon
          have hh : (renderPattern (sg :: more)).reverse.head? = some '/' := by
            rw [hrc, hcon]
            rfl
          rw [List.head?_reverse, hlast] at hh
          injection hh with h1
          exact hchs h1
      rw [hrev, List.reverse_reverse]
    rw [hstrip]
    rw [show renderPattern (sg :: more) =
      '/' :: joinWithChar '/' ((sg :: more).map renderSeg) from rfl]
    rw [hct]
    rw [List.dropWhile_cons_of_pos (by simp)]
    rw [List.dropWhile_cons_of_neg (by simp only [decide_eq_true_eq]; exact hcs)]

theorem compilePath_render (segs : List GenSeg)
    (hwf : ∀ sg ∈ segs, segOK sg = true) :
    compilePath (renderPattern segs) false true =
      (⟨.lit '/' :: toksOf segs, .endSlashes, true⟩, namesOf segs) := by
  have hstar : (renderPattern segs).getLast? ≠ some '*' := by
    intro h
    exact star_not_mem_render segs hwf (List.mem_of_mem_getLast? h)
  unfold compilePath
  rw [if_neg hstar]
  rw [render_body segs hwf]
  rw [show renderPattern segs = '/' :: joinWithChar '/' (segs.map renderSeg) from rfl]
  rw [scanTokens_cons_ne '/' _ (by decide)]
  rw [scanTokens_render segs hwf]
  rfl

theorem generatePath_render (params : Str → Option Str) (segs : List GenSeg)
    (hwf : ∀ sg ∈ segs, segOK sg = true)
    (hcov : ∀ n ∈ namesOf segs, ∃ v, params n = some v ∧ valOK v = true) :
    generatePath (renderPattern segs) params = .ok ('/' :: valsOf params segs) := by
  unfold generatePath renderPattern
  rw [genF_cons_ne params '/' _ (by decide)]
  rw [genRun_render params segs hwf hcov]
  have hstar : ('/' :: valsOf params segs : Str).getLast? ≠ some '*' := by
    intro hl
    have hmem := List.mem_of_mem_getLast? hl
    rcases List.mem_cons.mp hmem with h | h
    · cases h
    · unfold valsOf at h
      rcases mem_joinWithChar h with h | ⟨sv, hsv, hx⟩
      · cases h
      · rcases List.mem_map.mp hsv with ⟨sg, hsg, rfl⟩
        cases sg with
        | lit s =>
          exact ((litOK_props s (by simpa [segOK] using hwf _ hsg)).2 '*'
            (by simpa [segVal] using hx)).2.2 rfl
        | pvar n =>
          obtain ⟨v, hp, hv⟩ := hcov n (pvar_mem_namesOf hsg)
          rw [show segVal params (.pvar n) = (params n).getD [] from rfl, hp] at hx
          exact ((valOK_props v hv).2 '*' (by simpa using hx)).2.2 rfl
  show Except.ok (splatReplace params ('/' :: valsOf params segs)) = _
  unfold splatReplace
  rw [if_neg hstar]

/-! ## The matcher side of the round trip -/

theorem charMatches_refl (ci : Bool) (c : Char) : charMatches ci c c = true := by
  cases ci <;> simp [charMatches]

theorem matchToks_prev_irrel (ci : Bool) (toks : List PTok) (p1 p2 : Option Char)
    (s : Str) :
    matchToks ci .endSlashes toks p1 s = matchToks ci .endSlashes toks p2 s := by
  cases toks with
  | nil => rfl
  | cons t ts => cases t <;> cases s <;> rfl

theorem matchToks_lit_append (s : Str) (ts : List PTok) (prev : Option Char)
    (rest : Str) :
    matchToks true .endSlashes (s.map .lit ++ ts) prev (s ++ rest) =
      (matchToks true .endSlashes ts prev rest).map
        (fun p => (p.1 + s.length, p.2)) := by
  induction s generalizing prev with
  | nil =>
    simp only [List.map_nil, List.nil_append, List.length_nil]
    cases matchToks true .endSlashes ts prev rest <;> rfl
  | cons c s ih =>
    show (if charMatches true c c then
        (matchToks true .endSlashes (s.map .lit ++ ts) (some c) (s ++ rest)).map
          (fun p => (p.1 + 1, p.2))
      else none) = _
    rw [if_pos (charMatches_refl true c)]
    rw [matchToks_prev_irrel true (s.map PTok.lit ++ ts) (some c) prev (s ++ rest)]
    rw [ih prev]
    cases matchToks true .endSlashes ts prev rest with
    | none => rfl
    | some p =>
      simp only [Option.map_some', List.length_cons]
      exact congrArg some (by rw [Nat.add_assoc])

theorem tryParam_greedy (cont : Char → Str → Option (Nat × List (Option Str)))
    (v : Str) (res : Nat × List (Option Str)) (rest : Str)
    (hv : ∀ c ∈ v, c ≠ '/')
    (hrest : ∀ c r2, rest = c :: r2 → c = '/')
    (hcont : ∀ c, cont c rest = some res) :
    ∀ takenRev : Str,
      tryParam cont takenRev (v ++ rest) =
        some (res.1 + takenRev.length + v.length,
          some (takenRev.reverse ++ v) :: res.2) := by
  induction v with
  | nil =>
    intro takenRev
    simp only [List.nil_append, List.length_nil, List.append_nil, Nat.add_zero]
    cases rest with
    | nil =>
      show (cont (takenRev.headD ' ') []).map
          (fun p => (p.1 + takenRev.length, some takenRev.reverse :: p.2)) = _
      rw [hcont]
      rfl
    | cons c r2 =>
      have hc := hrest c r2 rfl
      subst hc
      show ((if ('/' : Char) ≠ '/' then tryParam cont ('/' :: takenRev) r2 else none)
          <|> (cont (takenRev.headD ' ') ('/' :: r2)).map
            (fun p => (p.1 + takenRev.length, some takenRev.reverse :: p.2))) = _
      rw [if_neg (by simp)]
      rw [hcont]
      rfl
  | cons y v ih =>
    intro takenRev
    have hy : y ≠ '/' := hv y (List.mem_cons_self y v)
    have ih' := ih (fun c hc => hv c (List.mem_cons_of_mem y hc)) (y :: takenRev)
    show ((if y ≠ '/' then tryParam cont (y :: takenRev) (v ++ rest) else none)
        <|> (cont (takenRev.headD ' ') (y :: (v ++ rest))).map
          (fun p => (p.1 + takenRev.length, some takenRev.reverse :: p.2))) = _
    rw [if_pos hy]
    rw [ih']
    show some _ = _
    refine congrArg some ?_
    rw [Prod.mk.injEq]
    constructor
    · simp only [List.length_cons]
      omega
    · rw [List.reverse_cons, List.append_assoc, List.singleton_append]

theorem namesOf_cons_sub (sg : GenSeg) (more : List GenSeg) :
    ∀ n ∈ namesOf more, n ∈ namesOf (sg :: more) := by
  intro n hn
  unfold namesOf at hn ⊢
  rcases List.mem_filterMap.mp hn with ⟨s, hs, he⟩
  exact List.mem_filterMap.mpr ⟨s, List.mem_cons_of_mem sg hs, he⟩

theorem matchToks_run (params : Str → Option Str) (segs : List GenSeg)
    (prev : Option Char)
    (hwf : ∀ sg ∈ segs, segOK sg = true)
    (hcov : ∀ n ∈ namesOf segs, ∃ v, params n = some v ∧ valOK v = true) :
    matchToks true .endSlashes (toksOf segs) prev (valsOf params segs) =
      some ((valsOf params segs).length,
        (namesOf segs).map (fun n => some ((params n).getD []))) := by
  induction segs generalizing prev with
  | nil => rfl
  | cons sg more ih =>
    have hwf' : ∀ s ∈ more, segOK s = true :=
      fun s hs => hwf s (List.mem_cons_of_mem sg hs)
    have hcov' : ∀ n ∈ namesOf more, ∃ v, params n = some v ∧ valOK v = true :=
      fun n hn => hcov n (namesOf_cons_sub sg more n hn)
    have ihm := ih (some '/') hwf' hcov'
    clear ih
    cases sg with
    | lit s =>
      cases more with
      | nil =>
        have h1 : valsOf params [GenSeg.lit s] = s ++ [] := by
          simp [valsOf, joinWithChar, segVal]
        have h2 : toksOf [GenSeg.lit s] = s.map PTok.lit ++ [] := by
          simp [toksOf, segToks]
        rw [h1, h2, matchToks_lit_append s [] prev []]
        show some (0 + s.length, []) = _
        simp [namesOf]
      | cons m ms =>
        have h1 : valsOf params (GenSeg.lit s :: m :: ms) =
            s ++ ('/' :: valsOf params (m :: ms)) := by
          unfold valsOf
          rw [List.map_cons, joinWithChar_cons]
          rfl
        have h2 : toksOf (GenSeg.lit s :: m :: ms) =
            s.map PTok.lit ++ (PTok.lit '/' :: toksOf (m :: ms)) := rfl
        have h3 : namesOf (GenSeg.lit s :: m :: ms) = namesOf (m :: ms) := rfl
        rw [h1, h2, h3,
          matchToks_lit_append s (PTok.lit '/' :: toksOf (m :: ms)) prev
            ('/' :: valsOf params (m :: ms))]
        show (Option.map _ (if charMatches true '/' '/' then
            (matchToks true .endSlashes (toksOf (m :: ms)) (some '/')
              (valsOf params (m :: ms))).map (fun p => (p.1 + 1, p.2))
          else none)) = _
        rw [if_pos (charMatches_refl true '/'), ihm]
        show some _ = _
        refine congrArg some ?_
        rw [Prod.mk.injEq]
        refine ⟨?_, rfl⟩
        simp only [List.length_append, List.length_cons]
        omega
    | pvar n =>
      obtain ⟨v, hpv, hval⟩ :=
        hcov n (pvar_mem_namesOf (List.mem_cons_self ..))
      have hvp := valOK_props v hval
      obtain ⟨x, v2, hv2⟩ : ∃ x v2, v = x :: v2 := by
        cases v with
        | nil => cases hvp.1 rfl
        | cons a b => exact ⟨a, b, rfl⟩
      have hsv : segVal params (.pvar n) = v := by
        rw [show segVal params (.pvar n) = (params n).getD [] from rfl, hpv]
        rfl
      have hxs : x ≠ '/' := (hvp.2 x (by rw [hv2]; exact List.mem_cons_self ..)).1
      have hv2s : ∀ c ∈ v2, c ≠ '/' :=
        fun c hc => (hvp.2 c (by rw [hv2]; exact List.mem_cons_of_mem x hc)).1
      cases more with
      | nil =>
        have h1 : valsOf params [GenSeg.pvar n] = x :: (v2 ++ []) := by
          simp [valsOf, joinWithChar, hsv, hv2]
        have h2 : toksOf [GenSeg.pvar n] = [PTok.prm] := by
          simp [toksOf, segToks]
        have h3 : namesOf [GenSeg.pvar n] = [n] := rfl
        rw [h1, h2, h3]
        show (if x = '/' then none
          else tryParam (fun lastC r =>
            matchToks true .endSlashes [] (some lastC) r) [x] (v2 ++ [])) = _
        rw [if_neg hxs]
        rw [tryParam_greedy _ v2 (0, []) [] hv2s
          (fun c r2 h => absurd h (by simp))
          (fun c => rfl) [x]]
        refine congrArg some ?_
        rw [Prod.mk.injEq]
        constructor
        · simp only [List.length_cons, List.length_append, List.length_nil]
          omega
        · show [some ([x].reverse ++ v2)] = [some ((params n).getD [])]
          rw [hpv]
          show [some (x :: v2)] = [some v]
          rw [hv2]
      | cons m ms =>
        have h1 : valsOf params (GenSeg.pvar n :: m :: ms) =
            x :: (v2 ++ ('/' :: valsOf params (m :: ms))) := by
          unfold valsOf
          rw [List.map_cons, joinWithChar_cons, hsv, hv2]
          rfl
        have h2 : toksOf (GenSeg.pvar n :: m :: ms) =
            PTok.prm :: (PTok.lit '/' :: toksOf (m :: ms)) := rfl
        have h3 : namesOf (GenSeg.pvar n :: m :: ms) = n :: namesOf (m :: ms) := rfl
        rw [h1, h2, h3]
        show (if x = '/' then none
          else tryParam (fun lastC r =>
            matchToks true .endSlashes (PTok.lit '/' :: toksOf (m :: ms))
              (some lastC) r) [x] (v2 ++ ('/' :: valsOf params (m :: ms)))) = _
        rw [if_neg hxs]
        have hcont : ∀ c, matchToks true .endSlashes
            (PTok.lit '/' :: toksOf (m :: ms)) (some c)
            ('/' :: valsOf params (m :: ms)) =
            some ((valsOf params (m :: ms)).length + 1,
              (namesOf (m :: ms)).map (fun n2 => some ((params n2).getD []))) := by
          intro c
          show (if charMatches true '/' '/' then
              (matchToks true .endSlashes (toksOf (m :: ms)) (some '/')
                (valsOf params (m :: ms))).map (fun p => (p.1 + 1, p.2))
            else none) = _
          rw [if_pos (charMatches_refl true '/'), ihm]
          rfl
        rw [tryParam_greedy _ v2
          ((valsOf params (m :: ms)).length + 1,
            (namesOf (m :: ms)).map (fun n2 => some ((params n2).getD [])))
          ('/' :: valsOf params (m :: ms)) hv2s
          (fun c r2 h => by injection h with h4 h5; exact h4.symm)
          hcont [x]]
        refine congrArg some ?_
        rw [Prod.mk.injEq]
        constructor
        · simp only [List.length_cons, List.length_append, List.length_nil]
          omega
        · show some ([x].reverse ++ v2) :: _ = some ((params n).getD []) :: _
          rw [hpv]
          show some (x :: v2) :: _ = some v :: _
          rw [hv2]

/-! ## The params object built by `matchPath` -/

theorem zipCaps_map (f : Str → Option Str) (ns : List Str) :
    zipCaps ns (ns.map f) = ns.map (fun n => (n, f n)) := by
  induction ns with
  | nil => rfl
  | cons n ns ih => simp [zipCaps, ih]

theorem lookupParam_setParam (ps : List (Str × Str)) (k v x : Str) :
    lookupParam (setParam ps k v) x =
      if x = k then some v else lookupParam ps x := by
  induction ps with
  | nil =>
    by_cases hx : x = k
    · subst hx
      rw [if_pos rfl]
      simp [lookupParam, setParam, List.find?_cons]
    · have hkx : ¬ k = x := fun h => hx h.symm
      rw [if_neg hx]
      simp [lookupParam, setParam, List.find?_cons, hkx]
  | cons a ps ih =>
    obtain ⟨k2, v2⟩ := a
    show lookupParam
        (if k2 = k then (k2, v) :: ps else (k2, v2) :: setParam ps k v) x = _
    by_cases hk : k2 = k
    · subst hk
      rw [if_pos rfl]
      by_cases hx : x = k2
      · subst hx
        rw [if_pos rfl]
        simp [lookupParam, List.find?_cons]
      · have hkx : ¬ k2 = x := fun h => hx h.symm
        rw [if_neg hx]
        simp [lookupParam, List.find?_cons, hkx]
    · rw [if_neg hk]
      by_cases hx2 : k2 = x
      · have hxk : ¬ x = k := fun h => hk (hx2.trans h)
        rw [if_neg hxk]
        simp [lookupParam, List.find?_cons, hx2]
      · simpa [lookupParam, List.find?_cons, hx2] using ih

theorem lookupParam_foldl (ns : List Str) (w : Str → Str)
    (ps : List (Str × Str)) (x : Str) :
    lookupParam (ns.foldl (fun acc n => setParam acc n (w n)) ps) x =
      if x ∈ ns then some (w x) else lookupParam ps x := by
  induction ns generalizing ps with
  | nil => simp
  | cons n ns ih =>
    rw [List.foldl_cons, ih]
    by_cases hmem : x ∈ ns
    · rw [if_pos hmem, if_pos (List.mem_cons_of_mem n hmem)]
    · rw [if_neg hmem, lookupParam_setParam]
      by_cases hx : x = n
      · subst hx
        rw [if_pos rfl, if_pos (List.mem_cons_self ..)]
      · rw [if_neg hx, if_neg (by simp [hx, hmem])]

theorem paramsFold_nostar (matched : Str) (ns : List Str) (u : Str → Str)
    (ps : List (Str × Str)) (base : Str)
    (hns : ∀ n ∈ ns, n ≠ ['*']) :
    paramsFold matched (ns.map (fun n => (n, some (u n)))) (ps, base) =
      (ns.foldl
        (fun acc n => setParam acc n (safelyDecodeURIComponent (u n))) ps,
       base) := by
  induction ns generalizing ps with
  | nil => rfl
  | cons n ns ih =>
    rw [List.map_cons, List.foldl_cons]
    show paramsFold matched ((n, some (u n)) :: ns.map _) (ps, base) = _
    rw [paramsFold]
    rw [if_neg (hns n (List.mem_cons_self ..))]
    show paramsFold matched (ns.map _)
      (setParam ps n (safelyDecodeURIComponent (u n)), base) = _
    exact ih _ (fun m hm => hns m (List.mem_cons_of_mem n hm))

theorem decodeURIComponentM_no_percent (v : Str) (h : ∀ c ∈ v, c ≠ '%') :
    decodeURIComponentM v = some v := by
  induction v with
  | nil => rfl
  | cons c rest ih =>
    have hc : c ≠ '%' := h c (List.mem_cons_self c rest)
    have ih' : decodeURIComponentM rest = some rest :=
      ih (fun x hx => h x (List.mem_cons_of_mem c hx))
    rw [decodeURIComponentM.eq_def]
    split
    · rename_i heq
      cases heq
    · rename_i a b r2 heq
      injection heq with h1 h2
      exact absurd h1 hc
    · rename_i hne heq
      injection heq with h1 h2
      exact absurd h1 hc
    · rename_i c2 r2 hne1 hne2 heq
      injection heq with h1 h2
      subst h1
      subst h2
      rw [ih']
      rfl

theorem safelyDecode_no_percent (v : Str) (h : ∀ c ∈ v, c ≠ '%') :
    safelyDecodeURIComponent v = v := by
  unfold safelyDecodeURIComponent
  rw [decodeURIComponentM_no_percent v h]
  rfl

theorem namesOf_mem {n : Str} {segs : List GenSeg} (h : n ∈ namesOf segs) :
    GenSeg.pvar n ∈ segs := by
  unfold namesOf at h
  rcases List.mem_filterMap.mp h with ⟨sg, hsg, he⟩
  cases sg with
  | lit s => cases he
  | pvar m =>
    injection he with h1
    subst h1
    exact hsg

theorem namesOf_ne_star (segs : List GenSeg)
    (hwf : ∀ sg ∈ segs, segOK sg = true) :
    ∀ n ∈ namesOf segs, n ≠ ['*'] := by
  intro n hn hstar
  have hsg := namesOf_mem hn
  have hok := hwf _ hsg
  have hnm := nameOK_props n (by simpa [segOK] using hok)
  have := hnm.2 '*' (by rw [hstar]; exact List.mem_cons_self ..)
  simp [isWordChar] at this

/-- C6: for every pattern made of literal and `:name` segments (no splat),
rendered from a segment list, and every params mapping assigning a URL-safe
value to each named segment, `generatePath` succeeds and `matchPath` on the
generated pathname returns a match whose params field contains exactly the
given mapping on the pattern's names (and nothing else). -/
theorem generatePath_matchPath_roundtrip (params : Str → Option Str)
    (segs : List GenSeg)
    (hwf : ∀ sg ∈ segs, segOK sg = true)
    (hcov : ∀ n ∈ namesOf segs, ∃ v, params n = some v ∧ valOK v = true) :
    ∃ g, generatePath (renderPattern segs) params = .ok g ∧
      ∃ m, matchPath ⟨renderPattern segs, false, true⟩ g = some m ∧
        ∀ x, lookupParam m.params x =
          if x ∈ namesOf segs then params x else none := by
  refine ⟨'/' :: valsOf params segs, generatePath_render params segs hwf hcov, ?_⟩
  have hcomp : compilePath (renderPattern segs) false true =
      (⟨PTok.lit '/' :: toksOf segs, .endSlashes, true⟩, namesOf segs) :=
    compilePath_render segs hwf
  have hm : matchToks true .endSlashes (PTok.lit '/' :: toksOf segs) none
      ('/' :: valsOf params segs) =
      some ((valsOf params segs).length + 1,
        (namesOf segs).map (fun n => some ((params n).getD []))) := by
    show (if charMatches true '/' '/' then
        (matchToks true .endSlashes (toksOf segs) (some '/')
          (valsOf params segs)).map (fun p => (p.1 + 1, p.2))
      else none) = _
    rw [if_pos (charMatches_refl true '/'),
      matchToks_run params segs (some '/') hwf hcov]
    rfl
  have htake : ('/' :: valsOf params segs).take ((valsOf params segs).length + 1)
      = '/' :: valsOf params segs := by
    rw [List.take_succ_cons, List.take_length]
  have hzip : zipCaps (namesOf segs)
      ((namesOf segs).map (fun n => some ((params n).getD []))) =
      (namesOf segs).map (fun n => (n, some ((params n).getD []))) :=
    zipCaps_map (fun n => some ((params n).getD [])) (namesOf segs)
  have hfold := paramsFold_nostar ('/' :: valsOf params segs) (namesOf segs)
    (fun n => (params n).getD []) []
    (stripSlashSuffix ('/' :: valsOf params segs))
    (namesOf_ne_star segs hwf)
  refine ⟨⟨(namesOf segs).foldl
      (fun acc n =>
        setParam acc n (safelyDecodeURIComponent ((params n).getD []))) [],
    '/' :: valsOf params segs,
    stripSlashSuffix ('/' :: valsOf params segs),
    ⟨renderPattern segs, false, true⟩⟩, ?_, ?_⟩
  · unfold matchPath
    simp only [hcomp, hm, htake, hzip, hfold]
  · intro x
    show lookupParam ((namesOf segs).foldl
        (fun acc n =>
          setParam acc n (safelyDecodeURIComponent ((params n).getD []))) []) x = _
    rw [lookupParam_foldl]
    by_cases hx : x ∈ namesOf segs
    · rw [if_pos hx, if_pos hx]
      obtain ⟨v, hpv, hval⟩ := hcov x hx
      rw [hpv]
      show some (safelyDecodeURIComponent v) = some v
      rw [safelyDecode_no_percent v
        (fun c hc => ((valOK_props v hval).2 c hc).2.1)]
    · rw [if_neg hx, if_neg hx]
      rfl

/-- Witness for C6 at the pattern `/users/:id` and params `id ↦ 42`. -/
theorem generatePath_matchPath_roundtrip_wit :
    ∃ g, generatePath (renderPattern csegs) cparams = .ok g ∧
      ∃ m, matchPath ⟨renderPattern csegs, false, true⟩ g = some m ∧
        ∀ x, lookupParam m.params x =
          if x ∈ namesOf csegs then cparams x else none :=
  generatePath_matchPath_roundtrip cparams csegs (by decide)
    (by
      intro n hn
      have hn2 : n = "id".toList := by
        simpa [csegs, namesOf] using hn
      subst hn2
      exact ⟨"42".toList, by simp [cparams], by decide⟩)
